import Mathlib

/-
  Verification development for the easy-fs VFS layer
  (src/easy-fs/src/vfs.rs) of the lab4-os6 repository.

  Conventions of the shallow embedding:
  * Byte values are `Nat` (well-formed states keep them below 256); file
    names are byte lists (the Rust `&str` is its UTF-8 byte sequence).
  * A Rust function that can panic (assert!, unwrap, slice overflow)
    returns `Option`: `none` models the panic.  The Rust `Option` result
    of an operation is nested inside as a second `Option` layer.
  * The mutable world (the bitmaps of `EasyFileSystem` plus the disk
    inodes reachable through the block cache) is one explicit state
    record, threaded through every operation; the coarse filesystem
    lock makes every vfs.rs call atomic, so sequential state passing is
    an exact model.
  * `DiskInode`, `DirEntry`, `Bitmap` and the `EasyFileSystem`
    allocator live in repository files that are not part of src/; the
    definitions below that carry a doc comment starting with
    `Modelled from the spec:` embed them from the specification text.
-/

namespace EasyFs

/-- Modelled from the spec: fixed device block size (512 bytes, spec section 2). -/
def BLOCK_SZ : Nat := 512

/-- Modelled from the spec: size in bytes of one `DirEntry` record
(bounded name field of fixed capacity, null-padded, plus a 4-byte
inode number; spec section 3). -/
def DIRENT_SZ : Nat := 32

/-- Modelled from the spec: usable name capacity of a `DirEntry`
(one byte of the fixed 28-byte field is the null terminator). -/
def NAME_LENGTH_LIMIT : Nat := 27

/-- Modelled from the spec: number of direct block pointers of a
`DiskInode` (classic multi-level indirection, spec section 3). -/
def INODE_DIRECT_COUNT : Nat := 28

/-- Modelled from the spec: block ids held by one indirect index block
(`BLOCK_SZ` divided by the 4-byte pointer size). -/
def INODE_INDIRECT1_COUNT : Nat := 128

/-- Modelled from the spec: first block of the inode area
(`[SuperBlock][inode bitmap][inode area]...`, spec section 6); the
exact offset is a fixed geometry constant. -/
def INODE_AREA_START : Nat := 2

/-- Modelled from the spec: `DiskInode` slots per 512-byte block
(fixed-size slot per inode number inside the inode area). -/
def INODES_PER_BLOCK : Nat := 4

/-- Modelled from the spec: byte size of one `DiskInode` slot. -/
def INODE_SZ : Nat := 128

/-- Modelled from the spec: first block id of the data area; `alloc_data`
returns bitmap index plus this offset, `dealloc_data` subtracts it. -/
def DATA_AREA_START : Nat := 100

/-- Modelled from the spec: file-or-directory type flag of a `DiskInode`. -/
inductive DiskInodeType where
  | file
  | directory
deriving DecidableEq

/-- Modelled from the spec: on-disk per-file metadata — `size` in bytes,
type flag, hard-link count `nlink`, and the content reachable through
the block-pointer table.  `bytes` is the file content (the data blocks
seen through the pointer table, spec section 4.4); `ownedBlocks` is the
ordered list of every block id wired into the pointer table (data
blocks and index blocks), which is exactly what `clear_size` collects
and returns. -/
structure DiskInode where
  type_ : DiskInodeType
  size : Nat
  nlink : Nat
  bytes : List Nat
  ownedBlocks : List Nat
deriving DecidableEq

/-- `DiskInode::is_dir` (layout; modelled from the spec type flag). -/
def DiskInode.is_dir (d : DiskInode) : Bool :=
  match d.type_ with
  | .directory => true
  | .file => false

/-- Modelled from the spec: `DiskInode::initialize` — an empty inode of
the given type; `nlink` starts at 1 (minimum 1 while reachable). -/
def initDiskInode (t : DiskInodeType) : DiskInode :=
  { type_ := t, size := 0, nlink := 1, bytes := [], ownedBlocks := [] }

/-- Default inode used for out-of-range reads of the inode table. -/
def dfltInode : DiskInode :=
  { type_ := .file, size := 0, nlink := 0, bytes := [], ownedBlocks := [] }

/-- Modelled from the spec: number of data blocks holding `size` bytes
(ceiling division by the block size). -/
def DiskInode.data_blocks (size : Nat) : Nat :=
  (size + BLOCK_SZ - 1) / BLOCK_SZ

/-- Modelled from the spec: total blocks owned at `size` — data blocks
plus the indirect index block once the direct pointers are exceeded,
plus the doubly-indirect block and its second-level index blocks. -/
def DiskInode.total_blocks (size : Nat) : Nat :=
  let d := DiskInode.data_blocks size
  if d ≤ INODE_DIRECT_COUNT then d
  else if d ≤ INODE_DIRECT_COUNT + INODE_INDIRECT1_COUNT then d + 1
  else d + 2 + (d - INODE_DIRECT_COUNT - INODE_INDIRECT1_COUNT - 1) / INODE_INDIRECT1_COUNT

/-- Modelled from the spec: `DiskInode::blocks_num_needed new_size` —
how many additional blocks must be allocated to grow to `new_size`. -/
def DiskInode.blocks_num_needed (d : DiskInode) (new_size : Nat) : Nat :=
  DiskInode.total_blocks new_size - DiskInode.total_blocks d.size

/-- Modelled from the spec: `DiskInode::read_at offset buf` — copies
bytes from content starting at `offset`, clipped to the current size;
the returned list is what lands in the caller's buffer (its length is
the returned byte count). -/
def DiskInode.read_at (d : DiskInode) (offset len : Nat) : List Nat :=
  let e := min (offset + len) d.size
  if e ≤ offset then [] else (d.bytes.take e).drop offset

/-- Modelled from the spec: `DiskInode::write_at offset buf` — writes
into already-allocated content without extending `size`; the write
range is clipped to `size`, and starting past the end is a fatal
assertion (`none`).  Returns the byte count written and the new inode. -/
def DiskInode.write_at (d : DiskInode) (offset : Nat) (buf : List Nat) :
    Option (Nat × DiskInode) :=
  let e := min (offset + buf.length) d.size
  if e < offset then none
  else some (e - offset,
    { d with bytes := (d.bytes.take offset) ++ buf.take (e - offset) ++ d.bytes.drop e })

/-- Modelled from the spec: `DiskInode::increase_size new_size v` —
consumes a pre-allocated list of block ids whose length must exactly
equal `blocks_num_needed new_size` (otherwise the wiring loop runs out:
fatal), wires them into the pointer table and raises `size`; the new
content bytes are the freshly allocated zeroed region. -/
def DiskInode.increase_size (d : DiskInode) (new_size : Nat)
    (new_blocks : List Nat) : Option DiskInode :=
  if new_size < d.size then none
  else if new_blocks.length ≠ d.blocks_num_needed new_size then none
  else some { d with
    size := new_size,
    bytes := d.bytes ++ List.replicate (new_size - d.size) 0,
    ownedBlocks := d.ownedBlocks ++ new_blocks }

/-- Modelled from the spec: `DiskInode::clear_size` — resets the inode
to zero length and returns every collected block id for deallocation. -/
def DiskInode.clear_size (d : DiskInode) : List Nat × DiskInode :=
  (d.ownedBlocks, { d with size := 0, bytes := [], ownedBlocks := [] })

/-- Modelled from the spec: little-endian bytes of a 4-byte inode number. -/
def encodeU32 (n : Nat) : List Nat :=
  [n % 256, n / 256 % 256, n / 65536 % 256, n / 16777216 % 256]

/-- Modelled from the spec: read a 4-byte little-endian number. -/
def decodeU32 (b : List Nat) : Nat :=
  b.getD 0 0 + 256 * b.getD 1 0 + 65536 * b.getD 2 0 + 16777216 * b.getD 3 0

/-- Modelled from the spec: `DirEntry::new name inode_number` as its
32-byte record — the name null-padded to the fixed field, then the
4-byte inode number.  A name beyond the field capacity overflows the
fixed array: fatal (`none`). -/
def DirEntry.new (name : List Nat) (inode_number : Nat) : Option (List Nat) :=
  if NAME_LENGTH_LIMIT < name.length then none
  else some (name ++ List.replicate (28 - name.length) 0 ++ encodeU32 inode_number)

/-- Modelled from the spec: `DirEntry::empty` — an all-zero record. -/
def DirEntry.empty : List Nat := List.replicate DIRENT_SZ 0

/-- Modelled from the spec: `DirEntry::name` — the name bytes of a
record, up to the first null of the fixed name field. -/
def DirEntry.name (bytes : List Nat) : List Nat :=
  (bytes.take 28).takeWhile (fun b => b ≠ 0)

/-- Modelled from the spec: `DirEntry::inode_number` of a record. -/
def DirEntry.inode_number (bytes : List Nat) : Nat :=
  decodeU32 (bytes.drop 28)

/-- Modelled from the spec: `Bitmap::alloc` — scan bit by bit for the
first zero bit, set it, return its index; `none` when exhausted. -/
def Bitmap.alloc : List Bool → Option (Nat × List Bool)
  | [] => none
  | b :: rest =>
    if b then (Bitmap.alloc rest).map (fun p => (p.1 + 1, b :: p.2))
    else some (0, true :: rest)

/-- Modelled from the spec: `Bitmap::dealloc` — clear the bit at the
index; clearing an already-free (or out-of-range) bit is a fatal
invariant violation (`none`). -/
def Bitmap.dealloc (bm : List Bool) (i : Nat) : Option (List Bool) :=
  if i < bm.length then
    if bm.getD i false then some (bm.set i false) else none
  else none

/-- Modelled from the spec: the mutable filesystem state — the two
allocation bitmaps owned by `EasyFileSystem` plus the inode table
(slot `i` is inode number `i`) reachable through the block cache. -/
structure EasyFileSystem where
  inode_bitmap : List Bool
  data_bitmap : List Bool
  inodes : List DiskInode
deriving DecidableEq

/-- Modelled from the spec: `EasyFileSystem::get_disk_inode_pos` — pure
arithmetic from inode number to `(block_id, block_offset)`. -/
def EasyFileSystem.get_disk_inode_pos (inode_id : Nat) : Nat × Nat :=
  (INODE_AREA_START + inode_id / INODES_PER_BLOCK,
   (inode_id % INODES_PER_BLOCK) * INODE_SZ)

/-- Modelled from the spec: `EasyFileSystem::get_disk_inode` — the
inverse arithmetic, from `(block_id, block_offset)` back to the inode
number. -/
def EasyFileSystem.get_disk_inode (block_id block_offset : Nat) : Nat :=
  (block_id - INODE_AREA_START) * INODES_PER_BLOCK + block_offset / INODE_SZ

/-- Modelled from the spec: `EasyFileSystem::alloc_inode`. -/
def EasyFileSystem.alloc_inode (fs : EasyFileSystem) :
    Option (Nat × EasyFileSystem) :=
  (Bitmap.alloc fs.inode_bitmap).map
    (fun p => (p.1, { fs with inode_bitmap := p.2 }))

/-- Modelled from the spec: `EasyFileSystem::alloc_data` — a data bitmap
index shifted to the data area.  The repository's signature returns a
bare block id, so exhaustion is an unwrap panic (`none`). -/
def EasyFileSystem.alloc_data (fs : EasyFileSystem) :
    Option (Nat × EasyFileSystem) :=
  (Bitmap.alloc fs.data_bitmap).map
    (fun p => (p.1 + DATA_AREA_START, { fs with data_bitmap := p.2 }))

/-- Modelled from the spec: `EasyFileSystem::dealloc_data block_id`. -/
def EasyFileSystem.dealloc_data (fs : EasyFileSystem) (block_id : Nat) :
    Option EasyFileSystem :=
  (Bitmap.dealloc fs.data_bitmap (block_id - DATA_AREA_START)).map
    (fun bm => { fs with data_bitmap := bm })

/-- The `for _ in 0..blocks_needed { v.push(fs.alloc_data()) }` loop of
`Inode::increase_size` (vfs.rs lines 105-108). -/
def allocDataMany : Nat → EasyFileSystem → Option (List Nat × EasyFileSystem)
  | 0, fs => some ([], fs)
  | n + 1, fs =>
    match fs.alloc_data with
    | none => none
    | some (b, fs1) => (allocDataMany n fs1).map (fun p => (b :: p.1, p.2))

/-- The `for data_block in ... { fs.dealloc_data(data_block) }` loop of
`Inode::clear` (vfs.rs lines 205-207). -/
def deallocDataMany : List Nat → EasyFileSystem → Option EasyFileSystem
  | [], fs => some fs
  | b :: rest, fs =>
    match fs.dealloc_data b with
    | none => none
    | some fs1 => deallocDataMany rest fs1

/-- The VFS `Inode` handle (vfs.rs lines 17-22): the coordinates of one
on-disk inode; the shared `fs` and device references are the threaded
state. -/
structure Inode where
  block_id : Nat
  block_offset : Nat
deriving DecidableEq

/-- Handle positioned by `get_disk_inode_pos`, as built by
`find`/`create`/`create_nlink`. -/
def posHandle (inode_id : Nat) : Inode :=
  { block_id := (EasyFileSystem.get_disk_inode_pos inode_id).1,
    block_offset := (EasyFileSystem.get_disk_inode_pos inode_id).2 }

/-- Inode-table index of a handle (its inode number). -/
def inodeIdx (h : Inode) : Nat :=
  EasyFileSystem.get_disk_inode h.block_id h.block_offset

/-- `read_disk_inode` (vfs.rs lines 40-45): the `DiskInode` a handle
points at. -/
def readDisk (fs : EasyFileSystem) (h : Inode) : DiskInode :=
  fs.inodes.getD (inodeIdx h) dfltInode

/-- `modify_disk_inode` write-back (vfs.rs lines 47-52). -/
def writeDisk (fs : EasyFileSystem) (h : Inode) (d : DiskInode) :
    EasyFileSystem :=
  { fs with inodes := fs.inodes.set (inodeIdx h) d }

/-- The scan loop of `Inode::find_inode_id` (vfs.rs lines 63-75) over a
list of remaining entry indices: read the record at `DIRENT_SZ * i`
into a `DirEntry` buffer, assert the full record size was read
(`assert_eq!`, vfs.rs line 64: `none` on failure), return the first
entry whose name matches. -/
def findFrom (name : List Nat) (d : DiskInode) : List Nat → Option (Option Nat)
  | [] => some none
  | i :: rest =>
    let dirent := d.read_at (DIRENT_SZ * i) DIRENT_SZ
    if dirent.length ≠ DIRENT_SZ then none
    else if DirEntry.name dirent = name then
      some (some (DirEntry.inode_number dirent))
    else findFrom name d rest

/-- `Inode::find_inode_id` (vfs.rs lines 54-77): asserts the inode is a
directory (`none` = panic), then scans the `size / DIRENT_SZ` records
for the first name match. -/
def Inode.find_inode_id (name : List Nat) (disk_inode : DiskInode) :
    Option (Option Nat) :=
  if disk_inode.is_dir then
    findFrom name disk_inode (List.range (disk_inode.size / DIRENT_SZ))
  else none

/-- `Inode::find` (vfs.rs lines 79-93): resolve a name to a new handle
at the matched inode's disk position. -/
def Inode.find (self : Inode) (name : List Nat) (fs : EasyFileSystem) :
    Option (Option Inode) :=
  match Inode.find_inode_id name (readDisk fs self) with
  | none => none
  | some r => some (r.map (fun inode_id => posHandle inode_id))

/-- `Inode::increase_size` (vfs.rs lines 95-110): early return when
`new_size < disk_inode.size`; otherwise allocate exactly
`blocks_num_needed new_size` data blocks from the allocator and wire
them in via `DiskInode::increase_size`. -/
def Inode.increase_size (new_size : Nat) (disk_inode : DiskInode)
    (fs : EasyFileSystem) : Option (DiskInode × EasyFileSystem) :=
  if new_size < disk_inode.size then some (disk_inode, fs)
  else
    match allocDataMany (disk_inode.blocks_num_needed new_size) fs with
    | none => none
    | some (v, fs1) =>
      (disk_inode.increase_size new_size v).map (fun d1 => (d1, fs1))

/-- `Inode::create` (vfs.rs lines 112-159): assert the inode is a
directory; return the Rust `None` (`some (fs, none)`) if the name
exists; otherwise allocate an inode slot, initialize it as an empty
file, append a directory entry and return the new handle. -/
def Inode.create (self : Inode) (name : List Nat) (fs : EasyFileSystem) :
    Option (EasyFileSystem × Option Inode) :=
  let root_inode := readDisk fs self
  if !root_inode.is_dir then none
  else
    match Inode.find_inode_id name root_inode with
    | none => none
    | some (some _) => some (fs, none)
    | some none =>
      match fs.alloc_inode with
      | none => none
      | some (new_inode_id, fs1) =>
        let fs2 := writeDisk fs1 (posHandle new_inode_id)
          (initDiskInode .file)
        let root2 := readDisk fs2 self
        let file_count := root2.size / DIRENT_SZ
        let new_size := (file_count + 1) * DIRENT_SZ
        match Inode.increase_size new_size root2 fs2 with
        | none => none
        | some (root3, fs3) =>
          match DirEntry.new name new_inode_id with
          | none => none
          | some dirent =>
            match root3.write_at (file_count * DIRENT_SZ) dirent with
            | none => none
            | some (_, root4) =>
              some (writeDisk fs3 self root4, some (posHandle new_inode_id))

/-- The collection loop of `Inode::ls` (vfs.rs lines 166-177): read each
record, assert the full record size (`assert_eq!`, vfs.rs line 168),
push its name — note the empty name of a deleted slot is pushed too. -/
def lsFrom (d : DiskInode) : List Nat → Option (List (List Nat))
  | [] => some []
  | i :: rest =>
    let dirent := d.read_at (i * DIRENT_SZ) DIRENT_SZ
    if dirent.length ≠ DIRENT_SZ then none
    else (lsFrom d rest).map (fun v => DirEntry.name dirent :: v)

/-- `Inode::ls` (vfs.rs lines 161-180): list every record's name in
on-disk order.  Note: the source has no directory assertion here. -/
def Inode.ls (self : Inode) (fs : EasyFileSystem) :
    Option (List (List Nat)) :=
  let disk_inode := readDisk fs self
  lsFrom disk_inode (List.range (disk_inode.size / DIRENT_SZ))

/-- `Inode::read_at` (vfs.rs lines 182-187). -/
def Inode.read_at (self : Inode) (offset len : Nat) (fs : EasyFileSystem) :
    List Nat :=
  (readDisk fs self).read_at offset len

/-- `Inode::write_at` (vfs.rs lines 189-197): grow to
`offset + buf.len()` first, then delegate to `DiskInode::write_at`. -/
def Inode.write_at (self : Inode) (offset : Nat) (buf : List Nat)
    (fs : EasyFileSystem) : Option (Nat × EasyFileSystem) :=
  let disk_inode := readDisk fs self
  match Inode.increase_size (offset + buf.length) disk_inode fs with
  | none => none
  | some (d1, fs1) =>
    match d1.write_at offset buf with
    | none => none
    | some (size, d2) => some (size, writeDisk fs1 self d2)

/-- `Inode::clear` (vfs.rs lines 199-210): `clear_size`, assert the
freed count equals `total_blocks size` (vfs.rs line 204), return every
freed block to the allocator. -/
def Inode.clear (self : Inode) (fs : EasyFileSystem) :
    Option EasyFileSystem :=
  let disk_inode := readDisk fs self
  let size := disk_inode.size
  let p := disk_inode.clear_size
  if p.1.length ≠ DiskInode.total_blocks size then none
  else deallocDataMany p.1 (writeDisk fs self p.2)

/-- `Inode::get_disk_inode` (vfs.rs lines 215-218): the handle's inode
number. -/
def Inode.get_disk_inode (self : Inode) : Nat :=
  EasyFileSystem.get_disk_inode self.block_id self.block_offset

/-- `Inode::find_inode` (vfs.rs lines 219-236): a duplicate of `find`
in the source, kept separate here as well. -/
def Inode.find_inode (self : Inode) (name : List Nat) (fs : EasyFileSystem) :
    Option (Option Inode) :=
  match Inode.find_inode_id name (readDisk fs self) with
  | none => none
  | some r => some (r.map (fun inode_id => posHandle inode_id))

/-- `Inode::get_disk_nlink` (vfs.rs lines 285-289). -/
def Inode.get_disk_nlink (self : Inode) (fs : EasyFileSystem) : Nat :=
  (readDisk fs self).nlink

/-- `Inode::add_disk_nlink` (vfs.rs lines 291-295). -/
def Inode.add_disk_nlink (self : Inode) (fs : EasyFileSystem) :
    EasyFileSystem :=
  let d := readDisk fs self
  writeDisk fs self { d with nlink := d.nlink + 1 }

/-- `Inode::sub_disk_nlink` (vfs.rs lines 296-300); `u32` subtraction,
here truncated at zero (reachable calls always have `nlink` positive). -/
def Inode.sub_disk_nlink (self : Inode) (fs : EasyFileSystem) :
    EasyFileSystem :=
  let d := readDisk fs self
  writeDisk fs self { d with nlink := d.nlink - 1 }

/-- `Inode::get_file_size` (vfs.rs lines 302-306). -/
def Inode.get_file_size (self : Inode) (fs : EasyFileSystem) : Nat :=
  (readDisk fs self).size

/-- `Inode::get_disk_type` (vfs.rs lines 308-317). -/
def Inode.get_disk_type (self : Inode) (fs : EasyFileSystem) : Nat :=
  if (readDisk fs self).is_dir then 0o040000 else 0o100000

/-- `Inode::create_nlink` (vfs.rs lines 237-272): fail (`Rust None`)
when `newname` exists; resolve `oldname` with `.unwrap()` — a missing
`oldname` is a panic (`none`); append an entry mapping `newname` to the
old handle's inode number; increment the target's `nlink`; return a
handle at the old coordinates. -/
def Inode.create_nlink (self : Inode) (newname oldname : List Nat)
    (fs : EasyFileSystem) : Option (EasyFileSystem × Option Inode) :=
  let root_node := readDisk fs self
  if !root_node.is_dir then none
  else
    match Inode.find_inode_id newname root_node with
    | none => none
    | some (some _) => some (fs, none)
    | some none =>
      match Inode.find_inode self oldname fs with
      | none => none
      | some none => none
      | some (some old_inode) =>
        let root_inode := readDisk fs self
        let file_num := root_inode.size / DIRENT_SZ
        let new_size := (file_num + 1) * DIRENT_SZ
        match DirEntry.new newname (Inode.get_disk_inode old_inode) with
        | none => none
        | some new_entry =>
          match Inode.increase_size new_size root_inode fs with
          | none => none
          | some (root1, fs1) =>
            match root1.write_at (file_num * DIRENT_SZ) new_entry with
            | none => none
            | some (_, root2) =>
              let fs2 := writeDisk fs1 self root2
              let fs3 := Inode.add_disk_nlink old_inode fs2
              some (fs3, some old_inode)

/-- The rewrite loop of `Inode::delete_file` (vfs.rs lines 324-339):
read each record into a zeroed `DirEntry` buffer (no size assertion in
the source here), overwrite every record whose name equals `path` with
the empty record, in place. -/
def deleteFrom (path : List Nat) : List Nat → DiskInode → Option DiskInode
  | [], d => some d
  | i :: rest, d =>
    let r := d.read_at (i * DIRENT_SZ) DIRENT_SZ
    let entry := r ++ List.replicate (DIRENT_SZ - r.length) 0
    if DirEntry.name entry = path then
      match d.write_at (i * DIRENT_SZ) DirEntry.empty with
      | none => none
      | some (_, d1) => deleteFrom path rest d1
    else deleteFrom path rest d

/-- `Inode::delete_file` (vfs.rs lines 318-342). -/
def Inode.delete_file (self : Inode) (path : List Nat)
    (fs : EasyFileSystem) : Option (EasyFileSystem × Int) :=
  let root_inode := readDisk fs self
  match deleteFrom path (List.range (root_inode.size / DIRENT_SZ)) root_inode with
  | none => none
  | some root1 => some (writeDisk fs self root1, 0)

/-- `Inode::delete_nlink` (vfs.rs lines 273-283): resolve `path` with
`.unwrap()` — a missing name is a panic (`none`); decrement the
target's `nlink`; only when the count reaches zero, clear the content
and empty the directory record; always return status `0`. -/
def Inode.delete_nlink (self : Inode) (path : List Nat)
    (fs : EasyFileSystem) : Option (EasyFileSystem × Int) :=
  match Inode.find_inode self path fs with
  | none => none
  | some none => none
  | some (some inode) =>
    let fs1 := Inode.sub_disk_nlink inode fs
    if Inode.get_disk_nlink inode fs1 = 0 then
      match Inode.clear inode fs1 with
      | none => none
      | some fs2 =>
        match Inode.delete_file self path fs2 with
        | none => none
        | some (fs3, _) => some (fs3, 0)
    else some (fs1, 0)

/-- Modelled from the spec: the format/mount boundary (spec section 6)
— a fresh volume with the root directory at inode 0 (allocated, empty,
`nlink` 1) and all other slots free. -/
def mkFs (nInodes nData : Nat) : EasyFileSystem :=
  { inode_bitmap := true :: List.replicate (nInodes - 1) false,
    data_bitmap := List.replicate nData false,
    inodes := initDiskInode .directory :: List.replicate (nInodes - 1) dfltInode }

/-- The root handle returned at mount. -/
def ROOT : Inode := posHandle 0

/-- Record at index `i` of a directory's content, as `find_inode_id`
reads it (vfs.rs line 65). -/
def direntAt (d : DiskInode) (i : Nat) : List Nat :=
  d.read_at (DIRENT_SZ * i) DIRENT_SZ

/-- The decoded name sequence of a directory's records, in on-disk
order, deleted (empty-name) slots included. -/
def dirNames (d : DiskInode) : List (List Nat) :=
  (List.range (d.size / DIRENT_SZ)).map (fun i => DirEntry.name (direntAt d i))

/-- Content well-formedness of an embedded inode: the byte list matches
the recorded size. -/
@[reducible] def wfInode (d : DiskInode) : Prop := d.bytes.length = d.size

/-- A name that fits a directory record and survives the null-padded
round trip: within the fixed capacity and free of null bytes. -/
@[reducible] def validName (name : List Nat) : Prop :=
  name.length ≤ NAME_LENGTH_LIMIT ∧ ∀ b ∈ name, b ≠ 0

/-- The owned blocks of an inode are deallocatable on this volume:
distinct bitmap indices, in range, currently allocated. -/
@[reducible] def blocksOk (fs : EasyFileSystem) (bs : List Nat) : Prop :=
  (bs.map (fun b => b - DATA_AREA_START)).Nodup ∧
  ∀ b ∈ bs, b - DATA_AREA_START < fs.data_bitmap.length ∧
    fs.data_bitmap.getD (b - DATA_AREA_START) false = true

/-
  ## Basic lemmas about the embedding
-/

theorem inodeIdx_posHandle (i : Nat) : inodeIdx (posHandle i) = i := by
  simp only [inodeIdx, posHandle, EasyFileSystem.get_disk_inode,
    EasyFileSystem.get_disk_inode_pos, INODE_AREA_START, INODES_PER_BLOCK, INODE_SZ]
  rw [Nat.mul_div_cancel _ (by norm_num : (0:Nat) < 128)]
  omega

theorem get_disk_inode_posHandle (i : Nat) :
    Inode.get_disk_inode (posHandle i) = i := inodeIdx_posHandle i

theorem readDisk_writeDisk_self (fs : EasyFileSystem) (h : Inode) (d : DiskInode)
    (hidx : inodeIdx h < fs.inodes.length) :
    readDisk (writeDisk fs h d) h = d := by
  simp [readDisk, writeDisk, List.getD_eq_getElem?_getD, List.getElem?_set_self hidx]

theorem readDisk_writeDisk_ne (fs : EasyFileSystem) (h h' : Inode) (d : DiskInode)
    (hne : inodeIdx h ≠ inodeIdx h') :
    readDisk (writeDisk fs h d) h' = readDisk fs h' := by
  simp [readDisk, writeDisk, List.getD_eq_getElem?_getD, List.getElem?_set_ne hne]

theorem writeDisk_inode_bitmap (fs : EasyFileSystem) (h : Inode) (d : DiskInode) :
    (writeDisk fs h d).inode_bitmap = fs.inode_bitmap := rfl

theorem writeDisk_data_bitmap (fs : EasyFileSystem) (h : Inode) (d : DiskInode) :
    (writeDisk fs h d).data_bitmap = fs.data_bitmap := rfl

theorem writeDisk_length (fs : EasyFileSystem) (h : Inode) (d : DiskInode) :
    (writeDisk fs h d).inodes.length = fs.inodes.length := by
  simp [writeDisk]

theorem Bitmap.alloc_spec : ∀ {bm : List Bool} {i : Nat} {bm' : List Bool},
    Bitmap.alloc bm = some (i, bm') →
    i < bm.length ∧ bm.getD i false = false ∧ bm' = bm.set i true := by
  intro bm
  induction bm with
  | nil => intro i bm' hal; simp [Bitmap.alloc] at hal
  | cons b rest ih =>
    intro i bm' hal
    by_cases hb : b
    · subst hb
      simp only [Bitmap.alloc, if_true] at hal
      cases hrec : Bitmap.alloc rest with
      | none => rw [hrec] at hal; simp at hal
      | some p =>
        rw [hrec] at hal
        simp only [Option.map] at hal
        simp at hal
        obtain ⟨hi, hbm'⟩ := hal
        obtain ⟨h1, h2, h3⟩ := ih (show Bitmap.alloc rest = some (p.1, p.2) from hrec)
        subst hi hbm'
        refine ⟨by simpa using h1, by simpa using h2, by simp [h3]⟩
    · simp only [Bool.not_eq_true] at hb
      subst hb
      simp only [Bitmap.alloc, if_false] at hal
      simp at hal
      obtain ⟨hi, hbm'⟩ := hal
      subst hi hbm'
      simp

theorem Bitmap.alloc_count : ∀ {bm : List Bool} {i : Nat} {bm' : List Bool},
    Bitmap.alloc bm = some (i, bm') →
    bm'.count false + 1 = bm.count false ∧ bm'.length = bm.length := by
  intro bm
  induction bm with
  | nil => intro i bm' hal; simp [Bitmap.alloc] at hal
  | cons b rest ih =>
    intro i bm' hal
    by_cases hb : b
    · subst hb
      simp only [Bitmap.alloc, if_true] at hal
      cases hrec : Bitmap.alloc rest with
      | none => rw [hrec] at hal; simp at hal
      | some p =>
        rw [hrec] at hal
        simp only [Option.map] at hal
        simp at hal
        obtain ⟨hi, hbm'⟩ := hal
        obtain ⟨h1, h2⟩ := ih (show Bitmap.alloc rest = some (p.1, p.2) from hrec)
        subst hbm'
        constructor
        · simp [List.count_cons]; omega
        · simp [h2]
    · simp only [Bool.not_eq_true] at hb
      subst hb
      simp only [Bitmap.alloc, if_false] at hal
      simp at hal
      obtain ⟨hi, hbm'⟩ := hal
      subst hbm'
      constructor
      · simp [List.count_cons]
      · simp

theorem Bitmap.alloc_isSome : ∀ {bm : List Bool}, 0 < bm.count false →
    ∃ i bm', Bitmap.alloc bm = some (i, bm') := by
  intro bm
  induction bm with
  | nil => intro hc; simp at hc
  | cons b rest ih =>
    intro hc
    by_cases hb : b
    · subst hb
      simp only [List.count_cons] at hc
      obtain ⟨i, bm', hrec⟩ := ih (by simpa using hc)
      exact ⟨i + 1, true :: bm', by simp [Bitmap.alloc, hrec]⟩
    · simp only [Bool.not_eq_true] at hb
      subst hb
      exact ⟨0, true :: rest, by simp [Bitmap.alloc]⟩

theorem Bitmap.alloc_none : ∀ {bm : List Bool}, bm.count false = 0 →
    Bitmap.alloc bm = none := by
  intro bm
  induction bm with
  | nil => intro _; rfl
  | cons b rest ih =>
    intro hc
    simp only [List.count_cons] at hc
    by_cases hb : b
    · subst hb
      simp [Bitmap.alloc, ih (by omega)]
    · simp only [Bool.not_eq_true] at hb
      subst hb
      simp at hc

theorem allocDataMany_spec : ∀ {n : Nat} {fs : EasyFileSystem} {v : List Nat}
    {fs' : EasyFileSystem}, allocDataMany n fs = some (v, fs') →
    v.length = n ∧ fs'.inodes = fs.inodes ∧ fs'.inode_bitmap = fs.inode_bitmap ∧
    fs'.data_bitmap.count false + n = fs.data_bitmap.count false ∧
    fs'.data_bitmap.length = fs.data_bitmap.length := by
  intro n
  induction n with
  | zero =>
    intro fs v fs' hrun
    simp only [allocDataMany] at hrun
    simp at hrun
    obtain ⟨hv, hfs⟩ := hrun
    subst hv hfs
    simp
  | succ m ih =>
    intro fs v fs' hrun
    simp only [allocDataMany] at hrun
    cases had : fs.alloc_data with
    | none => rw [had] at hrun; simp at hrun
    | some q =>
      obtain ⟨b1, fs1⟩ := q
      rw [had] at hrun
      dsimp only at hrun
      cases hrec : allocDataMany m fs1 with
      | none => rw [hrec] at hrun; simp at hrun
      | some p =>
        rw [hrec] at hrun
        simp at hrun
        obtain ⟨hv, hfs⟩ := hrun
        subst hv hfs
        obtain ⟨h1, h2, h3, h4, h5⟩ := ih hrec
        simp only [EasyFileSystem.alloc_data] at had
        cases hba : Bitmap.alloc fs.data_bitmap with
        | none => rw [hba] at had; simp at had
        | some r =>
          rw [hba] at had
          simp at had
          obtain ⟨hq1, hq2⟩ := had
          obtain ⟨hc1, hc2⟩ := Bitmap.alloc_count hba
          constructor
          · simp [h1]
          refine ⟨by rw [h2, ← hq2], by rw [h3, ← hq2], ?_, ?_⟩
          · rw [← hq2] at h4
            simp at h4
            omega
          · rw [← hq2] at h5
            simp at h5
            omega

theorem allocDataMany_isSome : ∀ {n : Nat} {fs : EasyFileSystem},
    n ≤ fs.data_bitmap.count false →
    ∃ v fs', allocDataMany n fs = some (v, fs') := by
  intro n
  induction n with
  | zero => intro fs _; exact ⟨[], fs, rfl⟩
  | succ m ih =>
    intro fs hle
    obtain ⟨i, bm', hba⟩ := @Bitmap.alloc_isSome fs.data_bitmap (by omega)
    have had : fs.alloc_data =
        some (i + DATA_AREA_START, { fs with data_bitmap := bm' }) := by
      simp [EasyFileSystem.alloc_data, hba]
    obtain ⟨hc1, hc2⟩ := Bitmap.alloc_count hba
    obtain ⟨v, fs', hrec⟩ := @ih { fs with data_bitmap := bm' } (by simp; omega)
    refine ⟨(i + DATA_AREA_START) :: v, fs', ?_⟩
    simp only [allocDataMany, had, hrec]
    rfl

theorem allocDataMany_none : ∀ {n : Nat} {fs : EasyFileSystem}, 0 < n →
    fs.data_bitmap.count false = 0 → allocDataMany n fs = none := by
  intro n fs hn hc
  cases n with
  | zero => omega
  | succ m =>
    simp only [allocDataMany, EasyFileSystem.alloc_data, Bitmap.alloc_none hc]
    rfl

theorem getD_set_ne {α : Type} (l : List α) {i j : Nat} (a dflt : α) (hne : i ≠ j) :
    (l.set i a).getD j dflt = l.getD j dflt := by
  simp [List.getD_eq_getElem?_getD, List.getElem?_set_ne hne]

theorem Bitmap.dealloc_pos {bm : List Bool} {i : Nat} (hlt : i < bm.length)
    (hset : bm.getD i false = true) : Bitmap.dealloc bm i = some (bm.set i false) := by
  unfold Bitmap.dealloc
  rw [if_pos hlt, if_pos hset]

theorem count_false_set_false : ∀ (bm : List Bool) (i : Nat), i < bm.length →
    bm.getD i false = true → (bm.set i false).count false = bm.count false + 1 := by
  intro bm
  induction bm with
  | nil => intro i hlt _; simp at hlt
  | cons b rest ih =>
    intro i hlt hget
    cases i with
    | zero =>
      have hb : b = true := hget
      subst hb
      simp [List.count_cons]
    | succ m =>
      have hget' : rest.getD m false = true := hget
      have hlt' : m < rest.length := by simpa using hlt
      simp [List.count_cons, ih m hlt' hget']
      omega

theorem deallocDataMany_spec : ∀ {bs : List Nat} {fs : EasyFileSystem},
    blocksOk fs bs →
    ∃ fs', deallocDataMany bs fs = some fs' ∧ fs'.inodes = fs.inodes ∧
      fs'.inode_bitmap = fs.inode_bitmap ∧
      fs'.data_bitmap.length = fs.data_bitmap.length ∧
      fs'.data_bitmap.count false = fs.data_bitmap.count false + bs.length := by
  intro bs
  induction bs with
  | nil => intro fs _; exact ⟨fs, rfl, rfl, rfl, rfl, by simp⟩
  | cons b rest ih =>
    intro fs hok
    obtain ⟨hnd, hall⟩ := hok
    obtain ⟨hlt, hset⟩ := hall b (by simp)
    have hdd : fs.dealloc_data b =
        some { fs with data_bitmap := fs.data_bitmap.set (b - DATA_AREA_START) false } := by
      simp only [EasyFileSystem.dealloc_data, Bitmap.dealloc_pos hlt hset]
      rfl
    have hok1 : blocksOk { fs with
        data_bitmap := fs.data_bitmap.set (b - DATA_AREA_START) false } rest := by
      constructor
      · simp only [List.map_cons, List.nodup_cons] at hnd
        exact hnd.2
      · intro b' hb'
        obtain ⟨hlt', hset'⟩ := hall b' (by simp [hb'])
        have hne : b - DATA_AREA_START ≠ b' - DATA_AREA_START := by
          simp only [List.map_cons, List.nodup_cons] at hnd
          intro hcontra
          exact hnd.1 (hcontra ▸ List.mem_map_of_mem _ hb')
        refine ⟨by simpa using hlt', ?_⟩
        show (fs.data_bitmap.set (b - DATA_AREA_START) false).getD
          (b' - DATA_AREA_START) false = true
        rw [getD_set_ne _ _ _ hne]
        exact hset'
    obtain ⟨fs', hrun, h1, h2, h3, h4⟩ := ih hok1
    refine ⟨fs', ?_, by simpa using h1, by simpa using h2, ?_, ?_⟩
    · simp only [deallocDataMany, hdd]
      exact hrun
    · simpa using h3
    · rw [h4]
      simp only [List.length_cons]
      have := count_false_set_false fs.data_bitmap (b - DATA_AREA_START) hlt hset
      simp at this ⊢
      omega

theorem length_overwrite {α : Type} (l e : List α) (off : Nat)
    (hoff : off + e.length ≤ l.length) :
    (l.take off ++ e ++ l.drop (off + e.length)).length = l.length := by
  simp
  omega

theorem getElem?_overwrite {α : Type} (l e : List α) (off : Nat)
    (hoff : off + e.length ≤ l.length) (j : Nat) :
    (l.take off ++ e ++ l.drop (off + e.length))[j]? =
      if j < off then l[j]?
      else if j < off + e.length then e[j - off]?
      else l[j]? := by
  have hto : (l.take off).length = off := by simp; omega
  have hte : (l.take off ++ e).length = off + e.length := by simp; omega
  by_cases h1 : j < off
  · rw [List.getElem?_append_left (by omega),
        List.getElem?_append_left (by omega), List.getElem?_take_of_lt h1]
    simp [h1]
  · by_cases h2 : j < off + e.length
    · rw [List.getElem?_append_left (by omega),
          List.getElem?_append_right (by omega), hto]
      simp [h1, h2]
    · rw [List.getElem?_append_right (by omega), hte, List.getElem?_drop]
      have harith : off + e.length + (j - (off + e.length)) = j := by omega
      rw [harith]
      simp [h1, h2]

theorem length_read_at (d : DiskInode) (off len : Nat)
    (hwf : d.size ≤ d.bytes.length) :
    (d.read_at off len).length = min (off + len) d.size - off := by
  unfold DiskInode.read_at
  by_cases he : min (off + len) d.size ≤ off
  · rw [if_pos he]
    simp
    omega
  · rw [if_neg he]
    rw [List.length_drop, List.length_take]
    omega

theorem read_at_getElem? (d : DiskInode) (off len m : Nat)
    (hend : off + len ≤ d.size) (hwf : d.size ≤ d.bytes.length) (hm : m < len) :
    (d.read_at off len)[m]? = d.bytes[off + m]? := by
  unfold DiskInode.read_at
  have hmin : min (off + len) d.size = off + len := by omega
  rw [hmin]
  have hno : ¬ (off + len ≤ off) := by omega
  rw [if_neg hno, List.getElem?_drop, List.getElem?_take_of_lt (by omega)]

theorem direntAt_length (d : DiskInode) (i : Nat)
    (hwf : d.size ≤ d.bytes.length) (hi : DIRENT_SZ * (i + 1) ≤ d.size) :
    (direntAt d i).length = DIRENT_SZ := by
  unfold direntAt
  rw [length_read_at _ _ _ hwf]
  have : DIRENT_SZ * (i + 1) = DIRENT_SZ * i + DIRENT_SZ := by ring
  omega

theorem chunk_le_size (d : DiskInode) {i : Nat} (hi : i < d.size / DIRENT_SZ) :
    DIRENT_SZ * (i + 1) ≤ d.size := by
  have h1 : i + 1 ≤ d.size / DIRENT_SZ := hi
  have h2 : DIRENT_SZ * (i + 1) ≤ DIRENT_SZ * (d.size / DIRENT_SZ) :=
    Nat.mul_le_mul_left _ h1
  have h3 : DIRENT_SZ * (d.size / DIRENT_SZ) ≤ d.size := by
    rw [Nat.mul_comm]
    exact Nat.div_mul_le_self _ _
  omega

theorem direntAt_length_of_lt (d : DiskInode) {i : Nat}
    (hwf : d.size ≤ d.bytes.length) (hi : i < d.size / DIRENT_SZ) :
    (direntAt d i).length = DIRENT_SZ :=
  direntAt_length d i hwf (chunk_le_size d hi)

theorem direntAt_eq_of_getElem (d : DiskInode) (i : Nat) (e : List Nat)
    (hwf : d.size ≤ d.bytes.length) (hi : DIRENT_SZ * (i + 1) ≤ d.size)
    (hlen : e.length = DIRENT_SZ)
    (hget : ∀ m, m < DIRENT_SZ → d.bytes[DIRENT_SZ * i + m]? = e[m]?) :
    direntAt d i = e := by
  have hdist : DIRENT_SZ * (i + 1) = DIRENT_SZ * i + DIRENT_SZ := by ring
  apply List.ext_getElem?
  intro n
  by_cases hn : n < DIRENT_SZ
  · rw [show direntAt d i = d.read_at (DIRENT_SZ * i) DIRENT_SZ from rfl]
    rw [read_at_getElem? d _ _ n (by omega) hwf hn]
    exact hget n hn
  · have h1 : (direntAt d i).length ≤ n := by
      rw [direntAt_length d i hwf hi]; omega
    have h2 : e.length ≤ n := by omega
    rw [List.getElem?_eq_none h1, List.getElem?_eq_none h2]

theorem write_at_chunk (d : DiskInode) (i : Nat) (e : List Nat)
    (hwf : d.bytes.length = d.size) (hi : DIRENT_SZ * (i + 1) ≤ d.size)
    (he : e.length = DIRENT_SZ) :
    ∃ d', d.write_at (DIRENT_SZ * i) e = some (DIRENT_SZ, d') ∧
      d'.size = d.size ∧ d'.bytes.length = d.size ∧ d'.type_ = d.type_ ∧
      d'.nlink = d.nlink ∧ d'.ownedBlocks = d.ownedBlocks ∧
      ∀ k, DIRENT_SZ * (k + 1) ≤ d.size →
        direntAt d' k = if k = i then e else direntAt d k := by
  have hdist : DIRENT_SZ * (i + 1) = DIRENT_SZ * i + DIRENT_SZ := by ring
  have hsz : DIRENT_SZ * i + e.length ≤ d.size := by omega
  have hmin : min (DIRENT_SZ * i + e.length) d.size = DIRENT_SZ * i + e.length := by
    omega
  have hlen2 : (d.bytes.take (DIRENT_SZ * i) ++ e ++
      d.bytes.drop (DIRENT_SZ * i + e.length)).length = d.size := by
    rw [length_overwrite _ _ _ (by omega)]
    exact hwf
  refine ⟨{ d with bytes := (d.bytes.take (DIRENT_SZ * i) ++ e ++
      d.bytes.drop (DIRENT_SZ * i + e.length)) }, ?_, rfl, hlen2, rfl, rfl, rfl, ?_⟩
  · unfold DiskInode.write_at
    rw [hmin, if_neg (by omega)]
    rw [show DIRENT_SZ * i + e.length - DIRENT_SZ * i = e.length from by omega]
    rw [List.take_length e, he]
  · intro k hk
    have hkdist : DIRENT_SZ * (k + 1) = DIRENT_SZ * k + DIRENT_SZ := by ring
    by_cases hki : k = i
    · subst hki
      rw [if_pos rfl]
      apply direntAt_eq_of_getElem
      · exact le_of_eq hlen2.symm
      · exact hk
      · exact he
      intro m hm
      show (d.bytes.take (DIRENT_SZ * k) ++ e ++
        d.bytes.drop (DIRENT_SZ * k + e.length))[DIRENT_SZ * k + m]? = e[m]?
      rw [getElem?_overwrite d.bytes e _ (by omega)]
      rw [if_neg (by omega), if_pos (by omega)]
      congr 1
      omega
    · rw [if_neg hki]
      apply direntAt_eq_of_getElem
      · exact le_of_eq hlen2.symm
      · exact hk
      · exact direntAt_length d k (by omega) hk
      intro m hm
      rw [show direntAt d k = d.read_at (DIRENT_SZ * k) DIRENT_SZ from rfl]
      rw [read_at_getElem? d _ _ m (by omega) (by omega) hm]
      show (d.bytes.take (DIRENT_SZ * i) ++ e ++
        d.bytes.drop (DIRENT_SZ * i + e.length))[DIRENT_SZ * k + m]? =
        d.bytes[DIRENT_SZ * k + m]?
      rw [getElem?_overwrite d.bytes e _ (by omega)]
      have hout : DIRENT_SZ * k + m < DIRENT_SZ * i ∨
          DIRENT_SZ * i + e.length ≤ DIRENT_SZ * k + m := by
        rcases Nat.lt_or_ge k i with hki2 | hki2
        · left
          have hmono : DIRENT_SZ * (k + 1) ≤ DIRENT_SZ * i :=
            Nat.mul_le_mul_left _ (by omega)
          omega
        · right
          have hki3 : i < k := by omega
          have hmono : DIRENT_SZ * (i + 1) ≤ DIRENT_SZ * k :=
            Nat.mul_le_mul_left _ (by omega)
          omega
      rcases hout with hco | hco
      · rw [if_pos hco]
      · rw [if_neg (by omega), if_neg (by omega)]

theorem total_blocks_zero : DiskInode.total_blocks 0 = 0 := by decide

theorem increase_size_spec {new_size : Nat} {d : DiskInode} {fs : EasyFileSystem}
    {d' : DiskInode} {fs' : EasyFileSystem}
    (hrun : Inode.increase_size new_size d fs = some (d', fs')) :
    (new_size < d.size → d' = d ∧ fs' = fs) ∧
    (d.size ≤ new_size →
      d'.size = new_size ∧
      d'.bytes = d.bytes ++ List.replicate (new_size - d.size) 0 ∧
      d'.ownedBlocks.length = d.ownedBlocks.length + d.blocks_num_needed new_size ∧
      d'.type_ = d.type_ ∧ d'.nlink = d.nlink ∧
      fs'.inodes = fs.inodes ∧ fs'.inode_bitmap = fs.inode_bitmap ∧
      fs'.data_bitmap.count false + d.blocks_num_needed new_size =
        fs.data_bitmap.count false ∧
      fs'.data_bitmap.length = fs.data_bitmap.length) := by
  unfold Inode.increase_size at hrun
  by_cases hlt : new_size < d.size
  · rw [if_pos hlt] at hrun
    simp at hrun
    obtain ⟨h1, h2⟩ := hrun
    subst h1 h2
    exact ⟨fun _ => ⟨rfl, rfl⟩, fun hge => by omega⟩
  · rw [if_neg hlt] at hrun
    refine ⟨fun hcon => absurd hcon hlt, fun hge => ?_⟩
    cases ham : allocDataMany (d.blocks_num_needed new_size) fs with
    | none => rw [ham] at hrun; simp at hrun
    | some p =>
      obtain ⟨v, fs1⟩ := p
      rw [ham] at hrun
      dsimp only at hrun
      unfold DiskInode.increase_size at hrun
      rw [if_neg hlt] at hrun
      obtain ⟨hv, h2, h3, h4, h5⟩ := allocDataMany_spec ham
      rw [if_neg (by omega)] at hrun
      simp at hrun
      obtain ⟨hd', hfs'⟩ := hrun
      subst hfs'
      refine ⟨by rw [← hd'], by rw [← hd'], ?_, by rw [← hd'], by rw [← hd'],
        h2, h3, by omega, h5⟩
      rw [← hd']
      simp [hv]

theorem increase_size_isSome {new_size : Nat} {d : DiskInode} {fs : EasyFileSystem}
    (hge : d.size ≤ new_size)
    (hfree : d.blocks_num_needed new_size ≤ fs.data_bitmap.count false) :
    ∃ d' fs', Inode.increase_size new_size d fs = some (d', fs') := by
  unfold Inode.increase_size
  by_cases hlt : new_size < d.size
  · omega
  · rw [if_neg hlt]
    obtain ⟨v, fs1, ham⟩ := allocDataMany_isSome hfree
    rw [ham]
    dsimp only
    obtain ⟨hv, h2, h3, h4, h5⟩ := allocDataMany_spec ham
    unfold DiskInode.increase_size
    rw [if_neg hlt, if_neg (by omega)]
    exact ⟨_, _, rfl⟩

theorem direntAt_grow (d : DiskInode) (pad : Nat) (k : Nat)
    (hwf : d.bytes.length = d.size) (hk : DIRENT_SZ * (k + 1) ≤ d.size) :
    direntAt { d with
      size := d.size + pad
      bytes := (d.bytes ++ List.replicate pad 0) } k = direntAt d k := by
  have hkdist : DIRENT_SZ * (k + 1) = DIRENT_SZ * k + DIRENT_SZ := by ring
  apply direntAt_eq_of_getElem
  · show d.size + pad ≤ (d.bytes ++ List.replicate pad 0).length
    simp
    omega
  · show DIRENT_SZ * (k + 1) ≤ d.size + pad
    omega
  · exact direntAt_length d k (by omega) hk
  · intro m hm
    show (d.bytes ++ List.replicate pad 0)[DIRENT_SZ * k + m]? = _
    rw [List.getElem?_append_left (by omega)]
    rw [show direntAt d k = d.read_at (DIRENT_SZ * k) DIRENT_SZ from rfl]
    rw [read_at_getElem? d _ _ m (by omega) (by omega) hm]

theorem findFrom_congr {name : List Nat} {d d' : DiskInode} :
    ∀ {is : List Nat}, (∀ i ∈ is, direntAt d i = direntAt d' i) →
    findFrom name d is = findFrom name d' is := by
  intro is
  induction is with
  | nil => intro _; rfl
  | cons i rest ih =>
    intro hch
    have hi : direntAt d i = direntAt d' i := hch i (by simp)
    show findFrom name d (i :: rest) = findFrom name d' (i :: rest)
    unfold findFrom
    rw [show d.read_at (DIRENT_SZ * i) DIRENT_SZ = direntAt d i from rfl,
        show d'.read_at (DIRENT_SZ * i) DIRENT_SZ = direntAt d' i from rfl, hi]
    rw [ih (fun j hj => hch j (by simp [hj]))]

theorem findFrom_append_none {name : List Nat} {d : DiskInode} :
    ∀ {is₁ is₂ : List Nat}, findFrom name d is₁ = some none →
    findFrom name d (is₁ ++ is₂) = findFrom name d is₂ := by
  intro is₁
  induction is₁ with
  | nil => intro is₂ _; rfl
  | cons i rest ih =>
    intro is₂ hf
    rw [List.cons_append]
    simp only [findFrom] at hf ⊢
    by_cases hlen : (d.read_at (DIRENT_SZ * i) DIRENT_SZ).length ≠ DIRENT_SZ
    · rw [if_pos hlen] at hf
      simp at hf
    · rw [if_neg hlen] at hf ⊢
      by_cases hname : DirEntry.name (d.read_at (DIRENT_SZ * i) DIRENT_SZ) = name
      · rw [if_pos hname] at hf
        simp at hf
      · rw [if_neg hname] at hf ⊢
        exact ih hf

theorem findFrom_append_found {name : List Nat} {d : DiskInode} {j : Nat} :
    ∀ {is₁ is₂ : List Nat}, findFrom name d is₁ = some (some j) →
    findFrom name d (is₁ ++ is₂) = some (some j) := by
  intro is₁
  induction is₁ with
  | nil => intro is₂ hf; simp [findFrom] at hf
  | cons i rest ih =>
    intro is₂ hf
    rw [List.cons_append]
    simp only [findFrom] at hf ⊢
    by_cases hlen : (d.read_at (DIRENT_SZ * i) DIRENT_SZ).length ≠ DIRENT_SZ
    · rw [if_pos hlen] at hf
      simp at hf
    · rw [if_neg hlen] at hf ⊢
      by_cases hname : DirEntry.name (d.read_at (DIRENT_SZ * i) DIRENT_SZ) = name
      · rw [if_pos hname] at hf ⊢
        exact hf
      · rw [if_neg hname] at hf ⊢
        exact ih hf

theorem findFrom_none_of_not_mem {name : List Nat} {d : DiskInode} :
    ∀ {is : List Nat},
    (∀ i ∈ is, (direntAt d i).length = DIRENT_SZ) →
    (∀ i ∈ is, DirEntry.name (direntAt d i) ≠ name) →
    findFrom name d is = some none := by
  intro is
  induction is with
  | nil => intro _ _; rfl
  | cons i rest ih =>
    intro hlen hname
    unfold findFrom
    rw [show d.read_at (DIRENT_SZ * i) DIRENT_SZ = direntAt d i from rfl]
    rw [if_neg (by simp [hlen i (by simp)])]
    rw [if_neg (hname i (by simp))]
    exact ih (fun j hj => hlen j (by simp [hj])) (fun j hj => hname j (by simp [hj]))

theorem findFrom_found_of_mem {name : List Nat} {d : DiskInode} :
    ∀ {is : List Nat},
    (∀ i ∈ is, (direntAt d i).length = DIRENT_SZ) →
    (∃ i ∈ is, DirEntry.name (direntAt d i) = name) →
    ∃ j, findFrom name d is = some (some j) := by
  intro is
  induction is with
  | nil => intro _ hex; simp at hex
  | cons i rest ih =>
    intro hlen hex
    unfold findFrom
    rw [show d.read_at (DIRENT_SZ * i) DIRENT_SZ = direntAt d i from rfl]
    rw [if_neg (by simp [hlen i (by simp)])]
    by_cases hname : DirEntry.name (direntAt d i) = name
    · rw [if_pos hname]
      exact ⟨_, rfl⟩
    · rw [if_neg hname]
      apply ih (fun j hj => hlen j (by simp [hj]))
      obtain ⟨i0, hi0, hn0⟩ := hex
      simp at hi0
      rcases hi0 with h | h
      · subst h; exact absurd hn0 hname
      · exact ⟨i0, h, hn0⟩

theorem mem_dirNames {name : List Nat} {d : DiskInode} :
    name ∈ dirNames d ↔
    ∃ i, i < d.size / DIRENT_SZ ∧ DirEntry.name (direntAt d i) = name := by
  unfold dirNames
  simp [List.mem_map, List.mem_range]

theorem find_inode_id_of_not_mem {name : List Nat} {d : DiskInode}
    (hdir : d.is_dir = true) (hwf : d.size ≤ d.bytes.length)
    (hnm : name ∉ dirNames d) :
    Inode.find_inode_id name d = some none := by
  unfold Inode.find_inode_id
  rw [if_pos hdir]
  apply findFrom_none_of_not_mem
  · intro i hi
    exact direntAt_length_of_lt d hwf (List.mem_range.mp hi)
  · intro i hi hcon
    exact hnm (mem_dirNames.mpr ⟨i, List.mem_range.mp hi, hcon⟩)

theorem find_inode_id_of_mem {name : List Nat} {d : DiskInode}
    (hdir : d.is_dir = true) (hwf : d.size ≤ d.bytes.length)
    (hm : name ∈ dirNames d) :
    ∃ j, Inode.find_inode_id name d = some (some j) := by
  unfold Inode.find_inode_id
  rw [if_pos hdir]
  apply findFrom_found_of_mem
  · intro i hi
    exact direntAt_length_of_lt d hwf (List.mem_range.mp hi)
  · obtain ⟨i, hi, hn⟩ := mem_dirNames.mp hm
    exact ⟨i, List.mem_range.mpr hi, hn⟩

theorem lsFrom_eq {d : DiskInode} :
    ∀ {is : List Nat}, (∀ i ∈ is, (direntAt d i).length = DIRENT_SZ) →
    lsFrom d is = some (is.map (fun i => DirEntry.name (direntAt d i))) := by
  intro is
  induction is with
  | nil => intro _; rfl
  | cons i rest ih =>
    intro hlen
    unfold lsFrom
    rw [show d.read_at (i * DIRENT_SZ) DIRENT_SZ = direntAt d i from by
      rw [direntAt, Nat.mul_comm]]
    rw [if_neg (by simp [hlen i (by simp)])]
    rw [ih (fun j hj => hlen j (by simp [hj]))]
    rfl

theorem ls_eq (fs : EasyFileSystem) (h : Inode)
    (hwf : (readDisk fs h).size ≤ (readDisk fs h).bytes.length) :
    Inode.ls h fs = some (dirNames (readDisk fs h)) := by
  unfold Inode.ls dirNames
  apply lsFrom_eq
  intro i hi
  exact direntAt_length_of_lt _ hwf (List.mem_range.mp hi)

theorem DirEntry.new_eq {name : List Nat} {ino : Nat}
    (hv : name.length ≤ NAME_LENGTH_LIMIT) :
    DirEntry.new name ino =
      some (name ++ List.replicate (28 - name.length) 0 ++ encodeU32 ino) := by
  unfold DirEntry.new
  rw [if_neg (by omega)]

theorem DirEntry.new_length {name : List Nat} {ino : Nat} {e : List Nat}
    (hv : name.length ≤ NAME_LENGTH_LIMIT) (he : DirEntry.new name ino = some e) :
    e.length = DIRENT_SZ := by
  have hlen27 : name.length ≤ 27 := hv
  rw [DirEntry.new_eq hv] at he
  simp at he
  subst he
  simp [encodeU32, DIRENT_SZ]
  omega

theorem DirEntry.name_new {name : List Nat} {ino : Nat} {e : List Nat}
    (hv : validName name) (he : DirEntry.new name ino = some e) :
    DirEntry.name e = name := by
  obtain ⟨hlen, hnz⟩ := hv
  have hlen27 : name.length ≤ 27 := hlen
  rw [DirEntry.new_eq hlen] at he
  simp at he
  subst he
  unfold DirEntry.name
  rw [List.take_append_eq_append_take, List.take_of_length_le (by omega),
      List.take_append_eq_append_take, List.take_of_length_le (by simp)]
  rw [show 28 - name.length - (List.replicate (28 - name.length) (0:Nat)).length = 0
    from by simp]
  rw [List.take_zero, List.append_nil]
  rw [List.takeWhile_append_of_pos (by
    intro a ha
    simpa using hnz a ha)]
  rw [show 28 - name.length = (28 - name.length - 1) + 1 from by omega]
  rw [List.replicate_succ]
  simp

theorem decodeU32_encodeU32 {n : Nat} (hn : n < 4294967296) :
    decodeU32 (encodeU32 n) = n := by
  simp [decodeU32, encodeU32]
  omega

theorem DirEntry.inode_number_new {name : List Nat} {ino : Nat} {e : List Nat}
    (hlen : name.length ≤ NAME_LENGTH_LIMIT) (hino : ino < 4294967296)
    (he : DirEntry.new name ino = some e) :
    DirEntry.inode_number e = ino := by
  rw [DirEntry.new_eq hlen] at he
  simp at he
  subst he
  have hlen27 : name.length ≤ 27 := hlen
  unfold DirEntry.inode_number
  rw [List.drop_append_eq_append_drop, List.drop_eq_nil_of_le (by omega),
      List.drop_append_eq_append_drop, List.drop_eq_nil_of_le (by simp)]
  rw [show 28 - name.length - (List.replicate (28 - name.length) (0:Nat)).length = 0
    from by simp]
  rw [List.drop_zero, List.nil_append, List.nil_append]
  exact decodeU32_encodeU32 hino

theorem DirEntry.name_empty : DirEntry.name DirEntry.empty = [] := by decide

theorem DirEntry.empty_length : DirEntry.empty.length = DIRENT_SZ := by
  simp [DirEntry.empty]

theorem deleteFrom_spec {path : List Nat} (hpath : path ≠ []) :
    ∀ (is : List Nat) (d : DiskInode), d.bytes.length = d.size →
    (∀ i ∈ is, DIRENT_SZ * (i + 1) ≤ d.size) → is.Nodup →
    ∃ d', deleteFrom path is d = some d' ∧ d'.size = d.size ∧
      d'.bytes.length = d.size ∧ d'.type_ = d.type_ ∧ d'.nlink = d.nlink ∧
      d'.ownedBlocks = d.ownedBlocks ∧
      ∀ k, DIRENT_SZ * (k + 1) ≤ d.size →
        direntAt d' k =
          if k ∈ is ∧ DirEntry.name (direntAt d k) = path then DirEntry.empty
          else direntAt d k := by
  intro is
  induction is with
  | nil =>
    intro d hwf _ _
    refine ⟨d, rfl, rfl, hwf, rfl, rfl, rfl, ?_⟩
    intro k _
    simp
  | cons i rest ih =>
    intro d hwf hbnd hnd
    have hi : DIRENT_SZ * (i + 1) ≤ d.size := hbnd i (by simp)
    have hr : d.read_at (i * DIRENT_SZ) DIRENT_SZ = direntAt d i := by
      rw [direntAt, Nat.mul_comm]
    have hrlen : (direntAt d i).length = DIRENT_SZ :=
      direntAt_length d i (by omega) hi
    have hentry : d.read_at (i * DIRENT_SZ) DIRENT_SZ ++
        List.replicate (DIRENT_SZ - (d.read_at (i * DIRENT_SZ) DIRENT_SZ).length) 0 =
        direntAt d i := by
      rw [hr, hrlen]
      simp
    simp only [deleteFrom]
    rw [hentry]
    simp only [List.nodup_cons] at hnd
    obtain ⟨hnotin, hndr⟩ := hnd
    by_cases hmatch : DirEntry.name (direntAt d i) = path
    · rw [if_pos hmatch]
      have hwc := write_at_chunk d i DirEntry.empty hwf hi DirEntry.empty_length
      obtain ⟨d1, hw, hsz1, hlen1, hty1, hnl1, hob1, hch1⟩ := hwc
      rw [show d.write_at (i * DIRENT_SZ) DirEntry.empty =
        d.write_at (DIRENT_SZ * i) DirEntry.empty from by rw [Nat.mul_comm], hw]
      obtain ⟨d', hrun, hsz', hlen', hty', hnl', hob', hch'⟩ :=
        ih d1 (by omega) (by
          intro j hj
          have := hbnd j (by simp [hj])
          omega) hndr
      refine ⟨d', hrun, by omega, by omega, by rw [hty', hty1],
        by rw [hnl', hnl1], by rw [hob', hob1], ?_⟩
      intro k hk
      have hk1 : DIRENT_SZ * (k + 1) ≤ d1.size := by omega
      rw [hch' k hk1]
      by_cases hki : k = i
      · subst hki
        rw [hch1 k hk]
        rw [if_pos rfl]
        have hne : DirEntry.name DirEntry.empty ≠ path := by
          rw [DirEntry.name_empty]
          exact fun hcon => hpath hcon.symm
        rw [if_neg (by
          rintro ⟨hin, hnm⟩
          exact hne hnm)]
        rw [if_pos ⟨by simp, hmatch⟩]
      · rw [hch1 k hk, if_neg hki]
        by_cases hcond : k ∈ rest ∧ DirEntry.name (direntAt d k) = path
        · rw [if_pos hcond, if_pos ⟨by simp [hcond.1], hcond.2⟩]
        · rw [if_neg hcond, if_neg (by
            rintro ⟨hin, hnm⟩
            simp at hin
            rcases hin with hcon | hin
            · exact hki hcon
            · exact hcond ⟨hin, hnm⟩)]
    · rw [if_neg hmatch]
      obtain ⟨d', hrun, hsz', hlen', hty', hnl', hob', hch'⟩ :=
        ih d hwf (fun j hj => hbnd j (by simp [hj])) hndr
      refine ⟨d', hrun, hsz', hlen', hty', hnl', hob', ?_⟩
      intro k hk
      rw [hch' k hk]
      by_cases hki : k = i
      · subst hki
        rw [if_neg (fun hcon => hnotin hcon.1), if_neg (fun hcon => hmatch hcon.2)]
      · by_cases hcond : k ∈ rest ∧ DirEntry.name (direntAt d k) = path
        · rw [if_pos hcond, if_pos ⟨by simp [hcond.1], hcond.2⟩]
        · rw [if_neg hcond, if_neg (by
            rintro ⟨hin, hnm⟩
            simp at hin
            rcases hin with hcon | hin
            · exact hki hcon
            · exact hcond ⟨hin, hnm⟩)]

/-
  ## Concrete scenario states

  A small volume built by running the embedded operations themselves:
  format, then `create a`, `create_hard_link b a`, and unlinks.
-/

/-- Name `a` as a byte list. -/
def nmA : List Nat := [97]

/-- Name `b` as a byte list. -/
def nmB : List Nat := [98]

/-- A freshly formatted small volume. -/
def fs0 : EasyFileSystem := mkFs 4 8

/-- After `create a` in the root. -/
def fs1 : EasyFileSystem := ((Inode.create ROOT nmA fs0).getD (fs0, none)).1

/-- After `create_hard_link b a` (inode 1 now has nlink 2). -/
def fs2 : EasyFileSystem :=
  ((Inode.create_nlink ROOT nmB nmA fs1).getD (fs0, none)).1

/-- After `unlink a` on the two-link state (count stays positive). -/
def fs3 : EasyFileSystem := ((Inode.delete_nlink ROOT nmA fs2).getD (fs0, 1)).1

/-- After `unlink a` on the one-link state (count reaches zero). -/
def fs4 : EasyFileSystem := ((Inode.delete_nlink ROOT nmA fs1).getD (fs0, 1)).1

/-
  ## Claim theorems
-/

/-- Claim C10: for every directory, name that resolves, and successful
run, `delete_nlink` returns status 0 — both when the link count reaches
zero and when it stays positive — so the status never distinguishes the
outcomes or signals failure. -/
theorem delete_nlink_status_zero (fs : EasyFileSystem) (h : Inode)
    (path : List Nat) (fs' : EasyFileSystem) (r : Int)
    (hrun : Inode.delete_nlink h path fs = some (fs', r)) : r = 0 := by
  unfold Inode.delete_nlink at hrun
  cases hfi : Inode.find_inode h path fs with
  | none => rw [hfi] at hrun; simp at hrun
  | some o =>
    rw [hfi] at hrun
    cases o with
    | none => simp at hrun
    | some inode =>
      dsimp only at hrun
      by_cases hz : Inode.get_disk_nlink inode (Inode.sub_disk_nlink inode fs) = 0
      · rw [if_pos hz] at hrun
        cases hcl : Inode.clear inode (Inode.sub_disk_nlink inode fs) with
        | none => rw [hcl] at hrun; simp at hrun
        | some fsc =>
          rw [hcl] at hrun
          dsimp only at hrun
          cases hdf : Inode.delete_file h path fsc with
          | none => rw [hdf] at hrun; simp at hrun
          | some p =>
            obtain ⟨fsd, r0⟩ := p
            rw [hdf] at hrun
            dsimp only at hrun
            simp at hrun
            exact hrun.2.symm
      · rw [if_neg hz] at hrun
        simp at hrun
        exact hrun.2.symm

/-- Witness for C10 at a concrete run: unlinking `a` from the
one-file volume. -/
theorem delete_nlink_status_zero_w :
    ((Inode.delete_nlink ROOT nmA fs1).getD (fs0, 1)).2 = 0 :=
  delete_nlink_status_zero fs1 ROOT nmA
    ((Inode.delete_nlink ROOT nmA fs1).getD (fs0, 1)).1
    ((Inode.delete_nlink ROOT nmA fs1).getD (fs0, 1)).2 (by decide)

/-- Claim C8: the vfs `increase_size` never decreases the inode's size;
when the requested size is not above the current one the call is a
no-op (inode and state returned unchanged); and otherwise exactly
`blocks_num_needed new_size` data blocks are allocated from the bitmap
to reach `new_size`. -/
theorem increase_size_monotone_exact (new_size : Nat) (d : DiskInode)
    (fs : EasyFileSystem) (d' : DiskInode) (fs' : EasyFileSystem)
    (hrun : Inode.increase_size new_size d fs = some (d', fs')) :
    d.size ≤ d'.size ∧
    (new_size ≤ d.size → d' = d ∧ fs' = fs) ∧
    (d.size ≤ new_size →
      d'.size = new_size ∧
      d'.ownedBlocks.length =
        d.ownedBlocks.length + d.blocks_num_needed new_size ∧
      fs'.data_bitmap.count false + d.blocks_num_needed new_size =
        fs.data_bitmap.count false) := by
  refine ⟨?_, ?_, ?_⟩
  · obtain ⟨hlt, hge⟩ := increase_size_spec hrun
    by_cases hcase : new_size < d.size
    · rw [(hlt hcase).1]
    · have h1 := (hge (by omega)).1
      omega
  · intro hle
    by_cases hcase : new_size < d.size
    · exact (increase_size_spec hrun).1 hcase
    · have heq : new_size = d.size := by omega
      subst heq
      unfold Inode.increase_size at hrun
      rw [if_neg (by omega)] at hrun
      have hb : d.blocks_num_needed d.size = 0 := by
        unfold DiskInode.blocks_num_needed
        omega
      rw [hb] at hrun
      simp only [allocDataMany] at hrun
      unfold DiskInode.increase_size at hrun
      rw [if_neg (by omega)] at hrun
      rw [if_neg (by rw [hb]; simp)] at hrun
      simp at hrun
      obtain ⟨hd, hf⟩ := hrun
      subst hd
      subst hf
      refine ⟨?_, rfl⟩
      cases d with
      | mk t sz nl byt ob => simp
  · intro hge2
    obtain ⟨_, hge⟩ := increase_size_spec hrun
    obtain ⟨h1, h2, h3, h4, h5, h6, h7, h8, h9⟩ := hge hge2
    exact ⟨h1, h3, h8⟩

/-- Witness for C8: growing a fresh file inode to 100 bytes on the
formatted volume. -/
theorem increase_size_monotone_exact_w :
    (readDisk fs1 (posHandle 1)).size ≤
      (((Inode.increase_size 100 (readDisk fs1 (posHandle 1)) fs1).getD
        (dfltInode, fs0)).1).size ∧
    (100 ≤ (readDisk fs1 (posHandle 1)).size →
      ((Inode.increase_size 100 (readDisk fs1 (posHandle 1)) fs1).getD
        (dfltInode, fs0)).1 = readDisk fs1 (posHandle 1) ∧
      ((Inode.increase_size 100 (readDisk fs1 (posHandle 1)) fs1).getD
        (dfltInode, fs0)).2 = fs1) ∧
    ((readDisk fs1 (posHandle 1)).size ≤ 100 →
      (((Inode.increase_size 100 (readDisk fs1 (posHandle 1)) fs1).getD
        (dfltInode, fs0)).1).size = 100 ∧
      (((Inode.increase_size 100 (readDisk fs1 (posHandle 1)) fs1).getD
        (dfltInode, fs0)).1).ownedBlocks.length =
        (readDisk fs1 (posHandle 1)).ownedBlocks.length +
          (readDisk fs1 (posHandle 1)).blocks_num_needed 100 ∧
      (((Inode.increase_size 100 (readDisk fs1 (posHandle 1)) fs1).getD
        (dfltInode, fs0)).2).data_bitmap.count false +
          (readDisk fs1 (posHandle 1)).blocks_num_needed 100 =
        fs1.data_bitmap.count false) :=
  increase_size_monotone_exact 100 (readDisk fs1 (posHandle 1)) fs1
    ((Inode.increase_size 100 (readDisk fs1 (posHandle 1)) fs1).getD
      (dfltInode, fs0)).1
    ((Inode.increase_size 100 (readDisk fs1 (posHandle 1)) fs1).getD
      (dfltInode, fs0)).2 (by decide)

/-- Claim C3: `create name` on a directory that already contains `name`
returns the absent result and performs no mutation at all — the state
(directory size, inode bitmap, data bitmap, all inode slots) is
returned unchanged. -/
theorem create_existing_no_mutation (fs : EasyFileSystem) (h : Inode)
    (name : List Nat) (hdir : (readDisk fs h).is_dir = true)
    (hwf : wfInode (readDisk fs h))
    (hmem : name ∈ dirNames (readDisk fs h)) :
    Inode.create h name fs = some (fs, none) := by
  obtain ⟨j, hfid⟩ := find_inode_id_of_mem hdir (le_of_eq hwf.symm) hmem
  unfold Inode.create
  simp [hdir, hfid]

/-- Witness for C3: creating `a` again on the volume that has `a`. -/
theorem create_existing_no_mutation_w :
    Inode.create ROOT nmA fs1 = some (fs1, none) :=
  create_existing_no_mutation fs1 ROOT nmA (by decide) (by decide) (by decide)

/-- Counterexample for C9: `ls` is a directory-only operation and inode 1
of the one-file volume is a File, yet `ls` on it returns normally
(the empty listing) instead of halting — the source `ls` has no
directory assertion. -/
theorem dir_only_ops_on_file_cex :
    (readDisk fs1 (posHandle 1)).is_dir = false ∧
    Inode.ls (posHandle 1) fs1 = some [] := by decide

/-- Claim C9 (amended): `find`, `create`, `create_hard_link` and
`unlink` on a File inode halt on the directory assertion, but `ls`
performs no type check and returns the inode's content reinterpreted
as directory records. -/
theorem dir_only_ops_on_file (fs : EasyFileSystem) (h : Inode)
    (hfile : (readDisk fs h).is_dir = false)
    (hwf : (readDisk fs h).size ≤ (readDisk fs h).bytes.length) :
    (∀ name, Inode.find h name fs = none) ∧
    (∀ name, Inode.create h name fs = none) ∧
    (∀ n o, Inode.create_nlink h n o fs = none) ∧
    (∀ p, Inode.delete_nlink h p fs = none) ∧
    Inode.ls h fs = some (dirNames (readDisk fs h)) := by
  have hfid : ∀ name, Inode.find_inode_id name (readDisk fs h) = none := by
    intro name
    simp [Inode.find_inode_id, hfile]
  refine ⟨?_, ?_, ?_, ?_, ls_eq fs h hwf⟩
  · intro name
    simp [Inode.find, hfid]
  · intro name
    simp [Inode.create, hfile]
  · intro n o
    simp [Inode.create_nlink, hfile]
  · intro p
    simp [Inode.delete_nlink, Inode.find_inode, hfid]

/-- Witness for the amended C9 at the File inode of the one-file
volume. -/
theorem dir_only_ops_on_file_w :
    (∀ name, Inode.find (posHandle 1) name fs1 = none) ∧
    (∀ name, Inode.create (posHandle 1) name fs1 = none) ∧
    (∀ n o, Inode.create_nlink (posHandle 1) n o fs1 = none) ∧
    (∀ p, Inode.delete_nlink (posHandle 1) p fs1 = none) ∧
    Inode.ls (posHandle 1) fs1 = some (dirNames (readDisk fs1 (posHandle 1))) :=
  dir_only_ops_on_file fs1 (posHandle 1) (by decide) (by decide)

/-- Counterexample for C5: `unlink` of the absent name `x` on the
fresh volume panics (the source unwraps the failed lookup);
`create_hard_link c x` with the non-existent `existing_name x` panics
likewise; and on a volume whose data bitmap is exhausted, `create a`
and a growing `write_at` panic on the unwrapped allocation — none of
these return an ordinary negative outcome. -/
theorem missing_name_panics_cex :
    Inode.delete_nlink ROOT ([120]) fs0 = none ∧
    Inode.create_nlink ROOT ([99]) ([120]) fs1 = none ∧
    Inode.create ROOT nmA (mkFs 4 0) = none ∧
    Inode.write_at ROOT 0 ([1]) (mkFs 4 0) = none := by decide

/-- Positivity of the block count of a non-empty file. -/
theorem total_blocks_pos {size : Nat} (hpos : 0 < size) :
    0 < DiskInode.total_blocks size := by
  unfold DiskInode.total_blocks DiskInode.data_blocks
  simp only [BLOCK_SZ, INODE_DIRECT_COUNT, INODE_INDIRECT1_COUNT]
  split_ifs <;> omega

/-- Claim C5 (amended): name-not-found in `find` and the
already-exists checks of `create` and `create_hard_link` are ordinary
absent results, but `unlink` of a non-existent name and
`create_hard_link` with a non-existent `existing_name` panic on the
unwrapped lookup, and allocator exhaustion — during a `create` that
must allocate a directory block, or during a `write_at` that grows the
inode — panics on the unwrapped allocation instead of surfacing as an
absent result. -/
theorem missing_name_panics (fs : EasyFileSystem) (h : Inode)
    (hdir : (readDisk fs h).is_dir = true)
    (hwf : (readDisk fs h).size ≤ (readDisk fs h).bytes.length) :
    (∀ name, name ∉ dirNames (readDisk fs h) →
      Inode.find h name fs = some none ∧
      Inode.delete_nlink h name fs = none) ∧
    (∀ newname oldname, newname ∉ dirNames (readDisk fs h) →
      oldname ∉ dirNames (readDisk fs h) →
      Inode.create_nlink h newname oldname fs = none) ∧
    (∀ name, name ∈ dirNames (readDisk fs h) →
      Inode.create h name fs = some (fs, none) ∧
      ∀ oldname, Inode.create_nlink h name oldname fs = some (fs, none)) ∧
    (∀ name, fs.data_bitmap.count false = 0 →
      0 < fs.inode_bitmap.count false →
      fs.inode_bitmap.getD (inodeIdx h) false = true →
      name ∉ dirNames (readDisk fs h) →
      0 < (readDisk fs h).blocks_num_needed
        (((readDisk fs h).size / DIRENT_SZ + 1) * DIRENT_SZ) →
      Inode.create h name fs = none) ∧
    (∀ offset buf, fs.data_bitmap.count false = 0 →
      (readDisk fs h).size ≤ offset + buf.length →
      0 < (readDisk fs h).blocks_num_needed (offset + buf.length) →
      Inode.write_at h offset buf fs = none) := by
  refine ⟨?_, ?_, ?_, ?_, ?_⟩
  · intro name hnm
    have hfid := find_inode_id_of_not_mem hdir hwf hnm
    constructor
    · simp [Inode.find, hfid]
    · simp [Inode.delete_nlink, Inode.find_inode, hfid]
  · intro newname oldname hnn hno
    have hfidn := find_inode_id_of_not_mem hdir hwf hnn
    have hfido := find_inode_id_of_not_mem hdir hwf hno
    simp [Inode.create_nlink, hdir, hfidn, Inode.find_inode, hfido]
  · intro name hnm
    obtain ⟨j, hfid⟩ := find_inode_id_of_mem hdir hwf hnm
    constructor
    · unfold Inode.create
      simp [hdir, hfid]
    · intro oldname
      unfold Inode.create_nlink
      simp [hdir, hfid]
  · intro name hc0 hifree hbit hnm hbnn
    have hfid := find_inode_id_of_not_mem hdir hwf hnm
    obtain ⟨n, bm', hba⟩ := @Bitmap.alloc_isSome fs.inode_bitmap hifree
    obtain ⟨hnlt, hnfree, hbm'⟩ := Bitmap.alloc_spec hba
    have han : fs.alloc_inode = some (n, { fs with inode_bitmap := bm' }) := by
      simp [EasyFileSystem.alloc_inode, hba]
    have hnh : n ≠ inodeIdx h := by
      intro heq
      rw [heq, hbit] at hnfree
      simp at hnfree
    have hroot2 : readDisk (writeDisk { fs with inode_bitmap := bm' }
        (posHandle n) (initDiskInode .file)) h = readDisk fs h :=
      readDisk_writeDisk_ne { fs with inode_bitmap := bm' } (posHandle n) h
        (initDiskInode .file) (by rw [inodeIdx_posHandle]; exact fun hc => hnh hc)
    have hnotlt : ¬ (((readDisk fs h).size / DIRENT_SZ + 1) * DIRENT_SZ <
        (readDisk fs h).size) := by
      have h1 := Nat.div_add_mod (readDisk fs h).size DIRENT_SZ
      have h2 : (readDisk fs h).size % DIRENT_SZ < DIRENT_SZ :=
        Nat.mod_lt _ (by norm_num [DIRENT_SZ])
      have h3 : ((readDisk fs h).size / DIRENT_SZ + 1) * DIRENT_SZ =
          (readDisk fs h).size / DIRENT_SZ * DIRENT_SZ + DIRENT_SZ := by ring
      have h4 : DIRENT_SZ * ((readDisk fs h).size / DIRENT_SZ) =
          (readDisk fs h).size / DIRENT_SZ * DIRENT_SZ := Nat.mul_comm _ _
      omega
    have hc0w : (writeDisk { fs with inode_bitmap := bm' } (posHandle n)
        (initDiskInode .file)).data_bitmap.count false = 0 := hc0
    have hincnone : Inode.increase_size
        (((readDisk fs h).size / DIRENT_SZ + 1) * DIRENT_SZ) (readDisk fs h)
        (writeDisk { fs with inode_bitmap := bm' } (posHandle n)
          (initDiskInode .file)) = none := by
      unfold Inode.increase_size
      rw [if_neg hnotlt, allocDataMany_none hbnn hc0w]
    unfold Inode.create
    simp only [hdir, Bool.not_true, Bool.false_eq_true, if_false, hfid, han]
    rw [hroot2, hincnone]
  · intro offset buf hc0 hsz hbnn
    have hincnone : Inode.increase_size (offset + buf.length)
        (readDisk fs h) fs = none := by
      unfold Inode.increase_size
      rw [if_neg (by omega)]
      rw [allocDataMany_none hbnn hc0]
    simp [Inode.write_at, hincnone]

/-- Witness for the amended C5, exercising every conjunct concretely:
missing names on the one-file volume (`b`, `c`, `x` absent, `a`
present), and allocator exhaustion on a volume formatted with no data
blocks. -/
theorem missing_name_panics_w :
    (Inode.find ROOT nmB fs1 = some none ∧
      Inode.delete_nlink ROOT nmB fs1 = none) ∧
    Inode.create_nlink ROOT ([99]) ([120]) fs1 = none ∧
    (Inode.create ROOT nmA fs1 = some (fs1, none) ∧
      ∀ oldname, Inode.create_nlink ROOT nmA oldname fs1 = some (fs1, none)) ∧
    Inode.create ROOT nmA (mkFs 4 0) = none ∧
    Inode.write_at ROOT 0 ([1]) (mkFs 4 0) = none :=
  ⟨(missing_name_panics fs1 ROOT (by decide) (by decide)).1 nmB (by decide),
   (missing_name_panics fs1 ROOT (by decide) (by decide)).2.1 ([99]) ([120])
     (by decide) (by decide),
   (missing_name_panics fs1 ROOT (by decide) (by decide)).2.2.1 nmA (by decide),
   (missing_name_panics (mkFs 4 0) ROOT (by decide) (by decide)).2.2.2.1 nmA
     (by decide) (by decide) (by decide) (by decide) (by decide),
   (missing_name_panics (mkFs 4 0) ROOT (by decide) (by decide)).2.2.2.2 0
     ([1]) (by decide) (by decide) (by decide)⟩

/-- Claim C7: on a well-formed volume `clear` succeeds (the freed-count
assertion cannot fire), truncates the inode to size 0 so that every
subsequent `read_at 0` returns 0 bytes, and returns exactly
`total_blocks original_size` blocks to the data allocator. -/
theorem clear_frees_all (fs : EasyFileSystem) (h : Inode)
    (hidx : inodeIdx h < fs.inodes.length)
    (hob : (readDisk fs h).ownedBlocks.length =
      DiskInode.total_blocks (readDisk fs h).size)
    (hbl : blocksOk fs (readDisk fs h).ownedBlocks) :
    ∃ fs', Inode.clear h fs = some fs' ∧
      Inode.get_file_size h fs' = 0 ∧
      (∀ len, Inode.read_at h 0 len fs' = []) ∧
      fs'.data_bitmap.count false =
        fs.data_bitmap.count false +
          DiskInode.total_blocks (readDisk fs h).size := by
  have hbl2 : blocksOk (writeDisk fs h (readDisk fs h).clear_size.2)
      (readDisk fs h).ownedBlocks := hbl
  obtain ⟨fs', hrun, hino, hibm, hlen, hcount⟩ := deallocDataMany_spec hbl2
  have hread : readDisk fs' h = (readDisk fs h).clear_size.2 := by
    show fs'.inodes.getD (inodeIdx h) dfltInode = _
    rw [hino]
    exact readDisk_writeDisk_self fs h _ hidx
  refine ⟨fs', ?_, ?_, ?_, ?_⟩
  · unfold Inode.clear
    rw [if_neg (fun hcon => hcon hob)]
    exact hrun
  · show (readDisk fs' h).size = 0
    rw [hread]
    rfl
  · intro len
    show (readDisk fs' h).read_at 0 len = []
    rw [hread]
    simp [DiskInode.read_at, DiskInode.clear_size]
  · rw [hcount, hob]
    rfl

/-- Witness for C7: clearing the root directory of the one-file volume
(it owns one data block; `total_blocks 32 = 1`). -/
theorem clear_frees_all_w :
    ∃ fs', Inode.clear ROOT fs1 = some fs' ∧
      Inode.get_file_size ROOT fs' = 0 ∧
      (∀ len, Inode.read_at ROOT 0 len fs' = []) ∧
      fs'.data_bitmap.count false =
        fs1.data_bitmap.count false +
          DiskInode.total_blocks (readDisk fs1 ROOT).size :=
  clear_frees_all fs1 ROOT (by decide) (by decide) (by decide)

/-- Claim C1: writing any byte sequence `b` at offset 0 to a freshly
created (empty) file inode and reading back `b.length` bytes at offset
0 returns exactly `b`, provided the volume has room for the write. -/
theorem write_read_roundtrip (fs : EasyFileSystem) (h : Inode) (b : List Nat)
    (hidx : inodeIdx h < fs.inodes.length)
    (hsz : (readDisk fs h).size = 0)
    (hby : (readDisk fs h).bytes = [])
    (hfree : DiskInode.total_blocks b.length ≤ fs.data_bitmap.count false) :
    ∃ fs', Inode.write_at h 0 b fs = some (b.length, fs') ∧
      Inode.read_at h 0 b.length fs' = b := by
  have hbnn : (readDisk fs h).blocks_num_needed (0 + b.length) =
      DiskInode.total_blocks b.length := by
    unfold DiskInode.blocks_num_needed
    rw [hsz, total_blocks_zero]
    simp
  have hfree2 : (readDisk fs h).blocks_num_needed (0 + b.length) ≤
      fs.data_bitmap.count false := by
    rw [hbnn]
    exact hfree
  obtain ⟨d1, fs1, hinc⟩ := increase_size_isSome (by omega) hfree2
  obtain ⟨_, hgeF⟩ := increase_size_spec hinc
  obtain ⟨hd1sz, hd1by, _, _, _, hino1, _, _, _⟩ := hgeF (by omega)
  have hd1sz' : d1.size = b.length := by omega
  have hd1by' : d1.bytes = List.replicate b.length 0 := by
    rw [hd1by, hby, hsz]
    simp
  have hw : d1.write_at 0 b = some (b.length, { d1 with bytes := b }) := by
    unfold DiskInode.write_at
    rw [hd1sz']
    rw [show min (0 + b.length) b.length = b.length from by omega]
    rw [if_neg (by omega)]
    simp [hd1by']
  refine ⟨writeDisk fs1 h { d1 with bytes := b }, ?_, ?_⟩
  · unfold Inode.write_at
    simp only [hinc, hw]
  · have hidx1 : inodeIdx h < fs1.inodes.length := by
      rw [hino1]
      exact hidx
    have hrd : readDisk (writeDisk fs1 h { d1 with bytes := b }) h =
        { d1 with bytes := b } :=
      readDisk_writeDisk_self fs1 h _ hidx1
    unfold Inode.read_at
    rw [hrd]
    unfold DiskInode.read_at
    show (if min (0 + b.length) d1.size ≤ 0 then ([] : List Nat)
      else (b.take (min (0 + b.length) d1.size)).drop 0) = b
    rw [hd1sz']
    rcases Nat.eq_zero_or_pos b.length with h0 | hpos
    · have hbnil : b = [] := List.length_eq_zero.mp h0
      subst hbnil
      simp
    · rw [show min (0 + b.length) b.length = b.length from by omega]
      rw [if_neg (by omega)]
      simp

/-- Witness for C1: the byte sequence `[5, 6, 7]` written to the fresh
file inode of the one-file volume. -/
theorem write_read_roundtrip_w :
    ∃ fs', Inode.write_at (posHandle 1) 0 ([5, 6, 7]) fs1 =
        some (([5, 6, 7] : List Nat).length, fs') ∧
      Inode.read_at (posHandle 1) 0 ([5, 6, 7] : List Nat).length fs' =
        [5, 6, 7] :=
  write_read_roundtrip fs1 (posHandle 1) ([5, 6, 7]) (by decide) (by decide)
    (by decide) (by decide)

/-- Counterexample for C6: after creating `a` and unlinking it, the root
directory holds one logically-deleted (empty-name) slot, and `ls`
returns the empty name rather than skipping it. -/
theorem ls_no_empty_names_cex :
    Inode.delete_nlink ROOT nmA fs1 = some (fs4, 0) ∧
    Inode.ls ROOT fs4 = some [[]] ∧
    ([] : List Nat) ∈ (Inode.ls ROOT fs4).getD [] := by decide

/-- Helper for the amended C6: `create name` on an empty directory of a
well-formed volume succeeds and a subsequent `ls` lists exactly that
name. -/
theorem create_in_empty_dir (fs : EasyFileSystem) (h : Inode) (name : List Nat)
    (hdir : (readDisk fs h).is_dir = true)
    (hsz : (readDisk fs h).size = 0)
    (hby : (readDisk fs h).bytes = [])
    (hvn : validName name)
    (hidx : inodeIdx h < fs.inodes.length)
    (hleq : fs.inodes.length = fs.inode_bitmap.length)
    (hbit : fs.inode_bitmap.getD (inodeIdx h) false = true)
    (hfree : 0 < fs.inode_bitmap.count false)
    (hdfree : 1 ≤ fs.data_bitmap.count false) :
    ∃ fs' n, Inode.create h name fs = some (fs', some (posHandle n)) ∧
      Inode.ls h fs' = some [name] := by
  have hfid : Inode.find_inode_id name (readDisk fs h) = some none := by
    unfold Inode.find_inode_id
    rw [hdir, hsz]
    simp [findFrom]
  obtain ⟨n, bm', hba⟩ := @Bitmap.alloc_isSome fs.inode_bitmap hfree
  obtain ⟨hnlt, hnfree, hbm'⟩ := Bitmap.alloc_spec hba
  have han : fs.alloc_inode = some (n, { fs with inode_bitmap := bm' }) := by
    simp [EasyFileSystem.alloc_inode, hba]
  have hnh : n ≠ inodeIdx h := by
    intro heq
    rw [heq, hbit] at hnfree
    simp at hnfree
  have hroot2 : readDisk (writeDisk { fs with inode_bitmap := bm' } (posHandle n)
      (initDiskInode .file)) h = readDisk fs h :=
    readDisk_writeDisk_ne { fs with inode_bitmap := bm' } (posHandle n) h
      (initDiskInode .file) (by rw [inodeIdx_posHandle]; exact fun hcon => hnh hcon)
  have hbn : (readDisk fs h).blocks_num_needed DIRENT_SZ = 1 := by
    unfold DiskInode.blocks_num_needed
    rw [hsz, total_blocks_zero]
    decide
  have hfree32 : (readDisk fs h).blocks_num_needed DIRENT_SZ ≤
      (writeDisk { fs with inode_bitmap := bm' } (posHandle n)
        (initDiskInode .file)).data_bitmap.count false := by
    rw [hbn]
    exact hdfree
  obtain ⟨root3, fs3, hinc⟩ := increase_size_isSome (by omega) hfree32
  obtain ⟨_, hgeF⟩ := increase_size_spec hinc
  obtain ⟨h3sz, h3by, _, h3ty, _, h3ino, _, _, _⟩ := hgeF (by omega)
  have h3sz' : root3.size = DIRENT_SZ := by rw [h3sz]
  have h3by' : root3.bytes = List.replicate DIRENT_SZ 0 := by
    rw [h3by, hby, hsz]
    simp
  obtain ⟨e, hde⟩ : ∃ e, DirEntry.new name n = some e :=
    ⟨_, DirEntry.new_eq hvn.1⟩
  have helen : e.length = DIRENT_SZ := DirEntry.new_length hvn.1 hde
  obtain ⟨root4, hw, h4sz, h4len, h4ty, _, _, hch⟩ :=
    write_at_chunk root3 0 e (by rw [h3by', h3sz']; simp) (by omega) helen
  rw [Nat.mul_zero] at hw
  have hch0 : direntAt root4 0 = e := by
    have := hch 0 (by omega)
    rw [if_pos rfl] at this
    exact this
  refine ⟨writeDisk fs3 h root4, n, ?_, ?_⟩
  · unfold Inode.create
    simp only [hdir, Bool.not_true, Bool.false_eq_true, if_false, hfid, han]
    rw [hroot2, hsz]
    simp only [Nat.zero_div, Nat.zero_add, Nat.one_mul, Nat.zero_mul]
    rw [hinc]
    simp only [hde]
    rw [hw]
  · have hidx3 : inodeIdx h < fs3.inodes.length := by
      rw [h3ino]
      simp [writeDisk]
      omega
    have hrd4 : readDisk (writeDisk fs3 h root4) h = root4 :=
      readDisk_writeDisk_self fs3 h root4 hidx3
    have hls := ls_eq (writeDisk fs3 h root4) h (by rw [hrd4]; omega)
    rw [hls, hrd4]
    have hdn : dirNames root4 = [name] := by
      unfold dirNames
      rw [show root4.size / DIRENT_SZ = 1 from by rw [h4sz, h3sz']; decide]
      rw [show List.range 1 = [0] from by decide]
      simp only [List.map_cons, List.map_nil]
      rw [hch0, DirEntry.name_new hvn hde]
    rw [hdn]

/-- Claim C6 (amended): `ls` returns every record's name in on-disk
order without skipping logically-deleted slots — an empty-name slot is
emitted as the empty name — and after creating a single file in an
empty root directory, `ls` returns exactly that one name. -/
theorem ls_emits_all_slots (fs : EasyFileSystem) (h : Inode) (name : List Nat)
    (hwf : (readDisk fs h).size ≤ (readDisk fs h).bytes.length) :
    Inode.ls h fs = some (dirNames (readDisk fs h)) ∧
    ((readDisk fs h).is_dir = true → (readDisk fs h).size = 0 →
      (readDisk fs h).bytes = [] → validName name →
      inodeIdx h < fs.inodes.length →
      fs.inodes.length = fs.inode_bitmap.length →
      fs.inode_bitmap.getD (inodeIdx h) false = true →
      0 < fs.inode_bitmap.count false →
      1 ≤ fs.data_bitmap.count false →
      ∃ fs' n, Inode.create h name fs = some (fs', some (posHandle n)) ∧
        Inode.ls h fs' = some [name]) := by
  refine ⟨ls_eq fs h hwf, ?_⟩
  intro hdir hsz hby hvn hidx hleq hbit hfree hdfree
  exact create_in_empty_dir fs h name hdir hsz hby hvn hidx hleq hbit hfree hdfree

/-- Witness for the amended C6 on the fresh volume. -/
theorem ls_emits_all_slots_w :
    Inode.ls ROOT fs0 = some (dirNames (readDisk fs0 ROOT)) ∧
    ((readDisk fs0 ROOT).is_dir = true → (readDisk fs0 ROOT).size = 0 →
      (readDisk fs0 ROOT).bytes = [] → validName nmA →
      inodeIdx ROOT < fs0.inodes.length →
      fs0.inodes.length = fs0.inode_bitmap.length →
      fs0.inode_bitmap.getD (inodeIdx ROOT) false = true →
      0 < fs0.inode_bitmap.count false →
      1 ≤ fs0.data_bitmap.count false →
      ∃ fs' n, Inode.create ROOT nmA fs0 = some (fs', some (posHandle n)) ∧
        Inode.ls ROOT fs' = some [nmA]) :=
  ls_emits_all_slots fs0 ROOT nmA (by decide)

/-- Counterexample for C2: on the volume where `a` and `b` are hard
links to inode 1 (nlink 2), `unlink a` decrements the count to 1 —
but the directory entry naming `a` is NOT removed: `a` still resolves
and still appears among the directory's names, contrary to the claim's
positive-count branch. -/
theorem unlink_keeps_entry_cex :
    Inode.get_disk_nlink (posHandle 1) fs2 = 2 ∧
    Inode.delete_nlink ROOT nmA fs2 = some (fs3, 0) ∧
    Inode.get_disk_nlink (posHandle 1) fs3 = 1 ∧
    Inode.find ROOT nmA fs3 = some (some (posHandle 1)) ∧
    nmA ∈ dirNames (readDisk fs3 ROOT) := by decide

/-- Claim C2 (amended): `unlink` decrements the target's `nlink`; when
the count reaches zero it clears and frees the content and overwrites
every record naming `path` with an empty-name record in place (no
compaction: slot count and order preserved); when the count remains
positive, the only change is the decremented link count — the
directory entry is left in place and content is untouched. -/
theorem unlink_decrement_branches (fs : EasyFileSystem) (h : Inode)
    (path : List Nat) (j : Nat)
    (hwfr : wfInode (readDisk fs h))
    (hpath : path ≠ [])
    (hfid : Inode.find_inode_id path (readDisk fs h) = some (some j))
    (hjne : inodeIdx h ≠ j)
    (hjlt : j < fs.inodes.length)
    (hhlt : inodeIdx h < fs.inodes.length)
    (hnl : 1 ≤ (readDisk fs (posHandle j)).nlink)
    (hob : (readDisk fs (posHandle j)).ownedBlocks.length =
      DiskInode.total_blocks (readDisk fs (posHandle j)).size)
    (hbl : blocksOk fs (readDisk fs (posHandle j)).ownedBlocks) :
    ∃ fs', Inode.delete_nlink h path fs = some (fs', 0) ∧
      (readDisk fs' (posHandle j)).nlink = (readDisk fs (posHandle j)).nlink - 1 ∧
      (2 ≤ (readDisk fs (posHandle j)).nlink →
        fs' = writeDisk fs (posHandle j)
          { readDisk fs (posHandle j) with
            nlink := (readDisk fs (posHandle j)).nlink - 1 }) ∧
      ((readDisk fs (posHandle j)).nlink = 1 →
        (readDisk fs' (posHandle j)).size = 0 ∧
        (readDisk fs' (posHandle j)).bytes = [] ∧
        fs'.data_bitmap.count false = fs.data_bitmap.count false +
          DiskInode.total_blocks (readDisk fs (posHandle j)).size ∧
        dirNames (readDisk fs' h) =
          (dirNames (readDisk fs h)).map
            (fun nm => if nm = path then [] else nm) ∧
        (dirNames (readDisk fs' h)).length =
          (dirNames (readDisk fs h)).length) := by
  have hjidx : inodeIdx (posHandle j) = j := inodeIdx_posHandle j
  have hjlt' : inodeIdx (posHandle j) < fs.inodes.length := by
    rw [hjidx]
    exact hjlt
  have hfi : Inode.find_inode h path fs = some (some (posHandle j)) := by
    unfold Inode.find_inode
    rw [hfid]
    rfl
  have hsub : Inode.sub_disk_nlink (posHandle j) fs =
      writeDisk fs (posHandle j)
        { readDisk fs (posHandle j) with
          nlink := (readDisk fs (posHandle j)).nlink - 1 } := rfl
  have hrd1 : readDisk (writeDisk fs (posHandle j)
      { readDisk fs (posHandle j) with
        nlink := (readDisk fs (posHandle j)).nlink - 1 }) (posHandle j) =
      { readDisk fs (posHandle j) with
        nlink := (readDisk fs (posHandle j)).nlink - 1 } :=
    readDisk_writeDisk_self fs (posHandle j) _ hjlt'
  have hnlk : Inode.get_disk_nlink (posHandle j)
      (Inode.sub_disk_nlink (posHandle j) fs) =
      (readDisk fs (posHandle j)).nlink - 1 := by
    unfold Inode.get_disk_nlink
    rw [hsub, hrd1]
  unfold Inode.delete_nlink
  rw [hfi]
  dsimp only
  by_cases hp : 2 ≤ (readDisk fs (posHandle j)).nlink
  · rw [if_neg (by rw [hnlk]; omega)]
    refine ⟨Inode.sub_disk_nlink (posHandle j) fs, rfl, ?_, fun _ => hsub, ?_⟩
    · rw [hsub, hrd1]
    · intro hcon
      omega
  · have hone : (readDisk fs (posHandle j)).nlink = 1 := by omega
    rw [if_pos (by rw [hnlk]; omega)]
    -- the cleared inode written back by clear
    have hbl2 : blocksOk (writeDisk (Inode.sub_disk_nlink (posHandle j) fs)
        (posHandle j)
        ({ readDisk fs (posHandle j) with
           nlink := (readDisk fs (posHandle j)).nlink - 1 }).clear_size.2)
        ({ readDisk fs (posHandle j) with
           nlink := (readDisk fs (posHandle j)).nlink - 1 }).ownedBlocks := hbl
    obtain ⟨fs2, hdealloc, h2ino, h2ibm, h2len, h2cnt⟩ := deallocDataMany_spec hbl2
    have hclr : Inode.clear (posHandle j) (Inode.sub_disk_nlink (posHandle j) fs) =
        some fs2 := by
      unfold Inode.clear
      rw [show readDisk (Inode.sub_disk_nlink (posHandle j) fs) (posHandle j) =
        { readDisk fs (posHandle j) with
          nlink := (readDisk fs (posHandle j)).nlink - 1 } from hrd1]
      rw [if_neg (fun hcon => hcon hob)]
      exact hdealloc
    rw [hclr]
    dsimp only
    -- the directory is untouched by the nlink write and the clear
    have hrdf2 : readDisk fs2 h = readDisk fs h := by
      have e1 : readDisk fs2 h =
          readDisk (writeDisk (Inode.sub_disk_nlink (posHandle j) fs) (posHandle j)
            ({ readDisk fs (posHandle j) with
               nlink := (readDisk fs (posHandle j)).nlink - 1 }).clear_size.2) h := by
        show fs2.inodes.getD (inodeIdx h) dfltInode = _
        rw [h2ino]
        rfl
      rw [e1]
      rw [readDisk_writeDisk_ne _ _ _ _ (by rw [hjidx]; exact fun hc => hjne hc.symm)]
      rw [hsub]
      rw [readDisk_writeDisk_ne _ _ _ _ (by rw [hjidx]; exact fun hc => hjne hc.symm)]
    obtain ⟨root', hdel, hdsz, hdlen, hdty, hdnl, hdob, hdch⟩ :=
      deleteFrom_spec hpath (List.range ((readDisk fs h).size / DIRENT_SZ))
        (readDisk fs h) hwfr
        (fun i hi => chunk_le_size _ (List.mem_range.mp hi))
        (List.nodup_range _)
    have hdf : Inode.delete_file h path fs2 = some (writeDisk fs2 h root', 0) := by
      unfold Inode.delete_file
      simp only [hrdf2, hdel]
    rw [hdf]
    have hlen2 : fs2.inodes.length = fs.inodes.length := by
      rw [h2ino]
      simp [writeDisk, Inode.sub_disk_nlink]
    have hrdj : readDisk (writeDisk fs2 h root') (posHandle j) =
        { readDisk fs (posHandle j) with
          nlink := (readDisk fs (posHandle j)).nlink - 1,
          size := 0, bytes := [], ownedBlocks := [] } := by
      rw [readDisk_writeDisk_ne _ _ _ _ (by rw [hjidx]; exact hjne)]
      have e1 : readDisk fs2 (posHandle j) =
          readDisk (writeDisk (Inode.sub_disk_nlink (posHandle j) fs) (posHandle j)
            ({ readDisk fs (posHandle j) with
               nlink := (readDisk fs (posHandle j)).nlink - 1 }).clear_size.2)
            (posHandle j) := by
        show fs2.inodes.getD (inodeIdx (posHandle j)) dfltInode = _
        rw [h2ino]
        rfl
      rw [e1]
      rw [readDisk_writeDisk_self _ _ _ (by
        simp [writeDisk, Inode.sub_disk_nlink]
        rw [hjidx]
        exact hjlt)]
      rfl
    have hrdh : readDisk (writeDisk fs2 h root') h = root' :=
      readDisk_writeDisk_self fs2 h root' (by rw [hlen2]; exact hhlt)
    refine ⟨writeDisk fs2 h root', rfl, ?_, fun hcon => by omega, fun _ => ?_⟩
    · rw [hrdj]
    refine ⟨by rw [hrdj], by rw [hrdj], ?_, ?_, ?_⟩
    · show fs2.data_bitmap.count false = _
      rw [h2cnt]
      have : ({ readDisk fs (posHandle j) with
          nlink := (readDisk fs (posHandle j)).nlink - 1 }).ownedBlocks.length =
          DiskInode.total_blocks (readDisk fs (posHandle j)).size := hob
      rw [this]
      rfl
    · rw [hrdh]
      unfold dirNames
      rw [hdsz]
      rw [List.map_map]
      apply List.map_congr_left
      intro i hi
      have hib : DIRENT_SZ * (i + 1) ≤ (readDisk fs h).size :=
        chunk_le_size _ (List.mem_range.mp hi)
      rw [hdch i hib]
      by_cases hmn : DirEntry.name (direntAt (readDisk fs h) i) = path
      · rw [if_pos ⟨hi, hmn⟩]
        show DirEntry.name DirEntry.empty = _
        rw [DirEntry.name_empty]
        simp [hmn]
      · rw [if_neg (fun hcon => hmn hcon.2)]
        simp [hmn]
    · rw [hrdh]
      unfold dirNames
      rw [hdsz]
      simp

/-- Witness for the amended C2 on the two-link volume (unlinking `a`
leaves the count positive). -/
theorem unlink_decrement_branches_w :
    ∃ fs', Inode.delete_nlink ROOT nmA fs2 = some (fs', 0) ∧
      (readDisk fs' (posHandle 1)).nlink =
        (readDisk fs2 (posHandle 1)).nlink - 1 ∧
      (2 ≤ (readDisk fs2 (posHandle 1)).nlink →
        fs' = writeDisk fs2 (posHandle 1)
          { readDisk fs2 (posHandle 1) with
            nlink := (readDisk fs2 (posHandle 1)).nlink - 1 }) ∧
      ((readDisk fs2 (posHandle 1)).nlink = 1 →
        (readDisk fs' (posHandle 1)).size = 0 ∧
        (readDisk fs' (posHandle 1)).bytes = [] ∧
        fs'.data_bitmap.count false = fs2.data_bitmap.count false +
          DiskInode.total_blocks (readDisk fs2 (posHandle 1)).size ∧
        dirNames (readDisk fs' ROOT) =
          (dirNames (readDisk fs2 ROOT)).map
            (fun nm => if nm = nmA then [] else nm) ∧
        (dirNames (readDisk fs' ROOT)).length =
          (dirNames (readDisk fs2 ROOT)).length) :=
  unlink_decrement_branches fs2 ROOT nmA 1 (by decide) (by decide) (by decide)
    (by decide) (by decide) (by decide) (by decide) (by decide) (by decide)

/-- `direntAt` depends only on the size and content of the inode. -/
theorem direntAt_congr_fields (d d' : DiskInode) (i : Nat)
    (hs : d.size = d'.size) (hb : d.bytes = d'.bytes) :
    direntAt d i = direntAt d' i := by
  unfold direntAt DiskInode.read_at
  rw [hs, hb]

/-- Claim C4: `create_hard_link new_name existing_name` on a directory
returns the absent result with the state unchanged when `new_name`
already exists; otherwise it appends a record mapping `new_name` to
`existing_name`'s inode number, increments that inode's `nlink`
(making it at least 2), and returns a handle at the existing inode's
`(block_id, block_offset)`; afterwards both names resolve via `find`
to that same on-disk location. -/
theorem create_hard_link_aliases (fs : EasyFileSystem) (h : Inode)
    (newname oldname : List Nat) (j : Nat)
    (hdir : (readDisk fs h).is_dir = true)
    (hwfr : wfInode (readDisk fs h)) :
    (newname ∈ dirNames (readDisk fs h) →
      Inode.create_nlink h newname oldname fs = some (fs, none)) ∧
    ((readDisk fs h).size % DIRENT_SZ = 0 →
      newname ∉ dirNames (readDisk fs h) →
      validName newname →
      Inode.find_inode_id oldname (readDisk fs h) = some (some j) →
      j < 4294967296 →
      inodeIdx h ≠ j →
      j < fs.inodes.length →
      inodeIdx h < fs.inodes.length →
      1 ≤ (readDisk fs (posHandle j)).nlink →
      (readDisk fs h).blocks_num_needed
        (((readDisk fs h).size / DIRENT_SZ + 1) * DIRENT_SZ) ≤
        fs.data_bitmap.count false →
      ∃ fs', Inode.create_nlink h newname oldname fs =
          some (fs', some (posHandle j)) ∧
        (readDisk fs' (posHandle j)).nlink =
          (readDisk fs (posHandle j)).nlink + 1 ∧
        2 ≤ (readDisk fs' (posHandle j)).nlink ∧
        dirNames (readDisk fs' h) = dirNames (readDisk fs h) ++ [newname] ∧
        Inode.find h newname fs' = some (some (posHandle j)) ∧
        Inode.find h oldname fs' = some (some (posHandle j))) := by
  refine ⟨?_, ?_⟩
  · intro hmem
    obtain ⟨j0, hfid⟩ := find_inode_id_of_mem hdir (le_of_eq hwfr.symm) hmem
    unfold Inode.create_nlink
    simp [hdir, hfid]
  · intro halign hnew hvn hold hj32 hjne hjlt hhlt hnl hfree
    have hjidx : inodeIdx (posHandle j) = j := inodeIdx_posHandle j
    have hfidn : Inode.find_inode_id newname (readDisk fs h) = some none :=
      find_inode_id_of_not_mem hdir (le_of_eq hwfr.symm) hnew
    have hfio : Inode.find_inode h oldname fs = some (some (posHandle j)) := by
      unfold Inode.find_inode
      rw [hold]
      rfl
    obtain ⟨e, hde⟩ : ∃ e, DirEntry.new newname j = some e :=
      ⟨_, DirEntry.new_eq hvn.1⟩
    have helen : e.length = DIRENT_SZ := DirEntry.new_length hvn.1 hde
    have hnamee : DirEntry.name e = newname := DirEntry.name_new hvn hde
    have hinoe : DirEntry.inode_number e = j :=
      DirEntry.inode_number_new hvn.1 hj32 hde
    have hdvd : DIRENT_SZ ∣ (readDisk fs h).size := Nat.dvd_of_mod_eq_zero halign
    have hns : ((readDisk fs h).size / DIRENT_SZ + 1) * DIRENT_SZ =
        (readDisk fs h).size + DIRENT_SZ := by
      rw [Nat.add_mul, Nat.one_mul, Nat.div_mul_cancel hdvd]
    obtain ⟨root1, fs1, hinc⟩ := increase_size_isSome
      (show (readDisk fs h).size ≤
        ((readDisk fs h).size / DIRENT_SZ + 1) * DIRENT_SZ from by omega) hfree
    obtain ⟨_, hgeF⟩ := increase_size_spec hinc
    obtain ⟨h1sz, h1by, _, h1ty, _, h1ino, _, _, _⟩ := hgeF (by omega)
    have h1sz' : root1.size = (readDisk fs h).size + DIRENT_SZ := by
      rw [h1sz, hns]
    have h1by' : root1.bytes =
        (readDisk fs h).bytes ++ List.replicate DIRENT_SZ 0 := by
      rw [h1by]
      congr 2
      rw [hns]
      omega
    have h1wf : root1.bytes.length = root1.size := by
      rw [h1by', h1sz']
      simp
      omega
    obtain ⟨root2, hw, h2sz, h2len, h2ty, _, _, hch⟩ :=
      write_at_chunk root1 ((readDisk fs h).size / DIRENT_SZ) e h1wf
        (by
          have hcm : DIRENT_SZ * ((readDisk fs h).size / DIRENT_SZ + 1) =
            ((readDisk fs h).size / DIRENT_SZ + 1) * DIRENT_SZ := Nat.mul_comm _ _
          rw [h1sz']
          omega) helen
    have hw' : root1.write_at ((readDisk fs h).size / DIRENT_SZ * DIRENT_SZ) e =
        some (DIRENT_SZ, root2) := by
      rw [show (readDisk fs h).size / DIRENT_SZ * DIRENT_SZ =
        DIRENT_SZ * ((readDisk fs h).size / DIRENT_SZ) from Nat.mul_comm _ _]
      exact hw
    have hchold : ∀ i, i < (readDisk fs h).size / DIRENT_SZ →
        direntAt root2 i = direntAt (readDisk fs h) i := by
      intro i hi
      have hib : DIRENT_SZ * (i + 1) ≤ (readDisk fs h).size :=
        chunk_le_size _ hi
      have hne : i ≠ (readDisk fs h).size / DIRENT_SZ := by omega
      have h1 := hch i (by rw [h1sz]; omega)
      rw [if_neg hne] at h1
      rw [h1]
      have e1 : direntAt root1 i = direntAt { readDisk fs h with
          size := (readDisk fs h).size + DIRENT_SZ
          bytes := ((readDisk fs h).bytes ++ List.replicate DIRENT_SZ 0) } i :=
        direntAt_congr_fields _ _ i (by rw [h1sz']) (by rw [h1by'])
      rw [e1]
      exact direntAt_grow (readDisk fs h) DIRENT_SZ i hwfr hib
    have hchlast : direntAt root2 ((readDisk fs h).size / DIRENT_SZ) = e := by
      have h1 := hch ((readDisk fs h).size / DIRENT_SZ) (by
        have hcm : DIRENT_SZ * ((readDisk fs h).size / DIRENT_SZ + 1) =
          ((readDisk fs h).size / DIRENT_SZ + 1) * DIRENT_SZ := Nat.mul_comm _ _
        rw [h1sz]
        omega)
      rw [if_pos rfl] at h1
      exact h1
    have hrd2j : readDisk (writeDisk fs1 h root2) (posHandle j) =
        readDisk fs (posHandle j) := by
      rw [readDisk_writeDisk_ne _ _ _ _ (by rw [hjidx]; exact hjne)]
      show fs1.inodes.getD (inodeIdx (posHandle j)) dfltInode = _
      rw [h1ino]
      rfl
    have hlen1 : (writeDisk fs1 h root2).inodes.length = fs.inodes.length := by
      simp [writeDisk]
      rw [h1ino]
    have hrdj' : readDisk (Inode.add_disk_nlink (posHandle j)
        (writeDisk fs1 h root2)) (posHandle j) =
        { readDisk (writeDisk fs1 h root2) (posHandle j) with
          nlink := (readDisk (writeDisk fs1 h root2) (posHandle j)).nlink + 1 } := by
      unfold Inode.add_disk_nlink
      exact readDisk_writeDisk_self _ _ _ (by rw [hjidx, hlen1]; exact hjlt)
    rw [hrd2j] at hrdj'
    have hrdh' : readDisk (Inode.add_disk_nlink (posHandle j)
        (writeDisk fs1 h root2)) h = root2 := by
      unfold Inode.add_disk_nlink
      rw [readDisk_writeDisk_ne _ _ _ _ (by rw [hjidx]; exact fun hc => hjne hc.symm)]
      exact readDisk_writeDisk_self fs1 h root2 (by
        show inodeIdx h < fs1.inodes.length
        rw [h1ino]
        exact hhlt)
    have hfc2 : root2.size / DIRENT_SZ = (readDisk fs h).size / DIRENT_SZ + 1 := by
      rw [h2sz, h1sz', Nat.add_div_right _ (by norm_num [DIRENT_SZ])]
    have hdn2 : dirNames root2 = dirNames (readDisk fs h) ++ [newname] := by
      unfold dirNames
      rw [hfc2, List.range_succ, List.map_append]
      congr 1
      · apply List.map_congr_left
        intro i hi
        rw [hchold i (List.mem_range.mp hi)]
      · simp only [List.map_cons, List.map_nil]
        rw [hchlast, hnamee]
    have hdir2 : root2.is_dir = true := by
      unfold DiskInode.is_dir at hdir ⊢
      rw [h2ty, h1ty]
      exact hdir
    have hold' : findFrom oldname (readDisk fs h)
        (List.range ((readDisk fs h).size / DIRENT_SZ)) = some (some j) := by
      unfold Inode.find_inode_id at hold
      rw [hdir] at hold
      rw [if_pos rfl] at hold
      exact hold
    refine ⟨Inode.add_disk_nlink (posHandle j) (writeDisk fs1 h root2),
      ?_, ?_, ?_, ?_, ?_, ?_⟩
    · unfold Inode.create_nlink
      simp only [hdir, Bool.not_true, Bool.false_eq_true, if_false, hfidn, hfio,
        get_disk_inode_posHandle, hde]
      rw [hinc]
      dsimp only
      rw [hw']
    · rw [hrdj']
    · rw [hrdj']
      show 2 ≤ (readDisk fs (posHandle j)).nlink + 1
      omega
    · rw [hrdh', hdn2]
    · unfold Inode.find
      rw [hrdh']
      have hff : Inode.find_inode_id newname root2 = some (some j) := by
        unfold Inode.find_inode_id
        rw [hdir2, if_pos rfl]
        rw [hfc2, List.range_succ]
        have hf1 : findFrom newname root2
            (List.range ((readDisk fs h).size / DIRENT_SZ)) = some none := by
          rw [findFrom_congr (fun i hi => hchold i (List.mem_range.mp hi))]
          apply findFrom_none_of_not_mem
          · intro i hi
            exact direntAt_length_of_lt _ (le_of_eq hwfr.symm) (List.mem_range.mp hi)
          · intro i hi hcon
            exact hnew (mem_dirNames.mpr ⟨i, List.mem_range.mp hi, hcon⟩)
        rw [findFrom_append_none hf1]
        simp only [findFrom]
        rw [show root2.read_at (DIRENT_SZ * ((readDisk fs h).size / DIRENT_SZ))
          DIRENT_SZ = direntAt root2 ((readDisk fs h).size / DIRENT_SZ) from rfl]
        rw [hchlast]
        rw [if_neg (by rw [helen]; simp), if_pos hnamee, hinoe]
      rw [hff]
      rfl
    · unfold Inode.find
      rw [hrdh']
      have hff : Inode.find_inode_id oldname root2 = some (some j) := by
        unfold Inode.find_inode_id
        rw [hdir2, if_pos rfl]
        rw [hfc2, List.range_succ]
        have hf1 : findFrom oldname root2
            (List.range ((readDisk fs h).size / DIRENT_SZ)) = some (some j) := by
          rw [findFrom_congr (fun i hi => hchold i (List.mem_range.mp hi))]
          exact hold'
        exact findFrom_append_found hf1
      rw [hff]
      rfl

/-- Witness for C4, exercising both branches on the one-file volume:
linking `a` to itself fails with the absent result and no mutation
(`a` exists), and linking `b` to `a` aliases inode 1. -/
theorem create_hard_link_aliases_w :
    Inode.create_nlink ROOT nmA nmA fs1 = some (fs1, none) ∧
    (∃ fs', Inode.create_nlink ROOT nmB nmA fs1 =
        some (fs', some (posHandle 1)) ∧
      (readDisk fs' (posHandle 1)).nlink =
        (readDisk fs1 (posHandle 1)).nlink + 1 ∧
      2 ≤ (readDisk fs' (posHandle 1)).nlink ∧
      dirNames (readDisk fs' ROOT) = dirNames (readDisk fs1 ROOT) ++ [nmB] ∧
      Inode.find ROOT nmB fs' = some (some (posHandle 1)) ∧
      Inode.find ROOT nmA fs' = some (some (posHandle 1))) :=
  ⟨(create_hard_link_aliases fs1 ROOT nmA nmA 1 (by decide) (by decide)).1
      (by decide),
   (create_hard_link_aliases fs1 ROOT nmB nmA 1 (by decide) (by decide)).2
      (by decide) (by decide) (by decide) (by decide) (by decide) (by decide)
      (by decide) (by decide) (by decide) (by decide)⟩

end EasyFs
